import Mathlib

/-!
Verification of the compression toolkit (Huffman and LZW codecs).

This file shallowly embeds the Python sources:
  - `compress/utils/binary_tree.py` (Node, BinaryTree, and the `heapq`
    operations it relies on),
  - `compress/algorithms/huffman.py` (HuffmanNode, Huffman),
  - `compress/algorithms/lzw.py` (LZW),
and proves or refutes the specification claims about them.

Bytes are modelled as `Nat`, bit strings as `List Bool` (`false` = "0",
`true` = "1", most significant bit first), Python `dict`s as insertion
ordered association lists, and file/IO failure modes (`raise`) as an
explicit error result type.
-/

set_option maxHeartbeats 1000000
set_option maxRecDepth 100000

/-- Result of a `compress_file` / `decompress_file` call: either an error
(`raise` in Python) or the bytes written to the output file. -/
inductive CErr where
  | emptyInput   -- IOError("File is empty !")
  | noGain       -- Exception("Aborted. No gain ...")
  | overflow     -- ValueError("Can't encode such value...")
  | crash        -- any other uncaught Python exception (IndexError, ValueError, TypeError, KeyError)
  deriving DecidableEq, Repr

inductive CRes where
  | err : CErr → CRes
  | ok : List Nat → CRes
  deriving DecidableEq, Repr

/-! ## Nodes

`HuffmanNode` from `huffman.py`: a node holding a frequency, and either a
byte value (leaf) or two children (internal).  `is_leaf` is
`left is None and right is None`; every internal node created by the code
has exactly two children, so the inductive has two constructors. -/

inductive HNode where
  | leaf : Nat → Nat → HNode            -- frequency, byte value
  | node : Nat → HNode → HNode → HNode  -- frequency, left, right
  deriving DecidableEq, Repr

instance : Inhabited HNode := ⟨.leaf 0 0⟩

def HNode.frequency : HNode → Nat
  | .leaf f _ => f
  | .node f _ _ => f

def HNode.value : HNode → Nat
  | .leaf _ v => v
  | .node _ _ _ => 0

def HNode.isLeaf : HNode → Bool
  | .leaf _ _ => true
  | .node _ _ _ => false

/-- `HuffmanNode.__lt__`: nodes compare by frequency. -/
def hlt (a b : HNode) : Bool := a.frequency < b.frequency

/-- Number of nodes in the tree (used as a termination measure). -/
def HNode.size : HNode → Nat
  | .leaf _ _ => 1
  | .node _ l r => 1 + l.size + r.size

/-! ## The `heapq` module

The Python code drives both tree construction and the "preorder" traversal
through `heapq.heappush` / `heapq.heappop`.  Tie behaviour of the binary
heap matters for which tree gets built, so the CPython list-based heap is
embedded exactly: `_siftdown` (sift towards the root) and `_siftup`
(sift towards the leaves, CPython's bubble-to-leaf variant). -/

/-- CPython `heapq._siftdown(heap, startpos, pos)`: `newitem` is the value
initially at `pos`; bubble it towards the root while it is smaller than its
parent (`parentpos = (pos - 1) >> 1`).  The first argument is structural
fuel: since `pos` strictly decreases, any fuel `≥ pos` gives exactly the
Python loop (when the fuel hits `0`, `pos = 0` and the loop would exit
with the same write anyway). -/
def siftdownLoop : Nat → List HNode → Nat → Nat → HNode → List HNode
  | fuel + 1, heap, startpos, pos, newitem =>
    if startpos < pos then
      if hlt newitem (heap.getD ((pos - 1) / 2) default) then
        siftdownLoop fuel (heap.set pos (heap.getD ((pos - 1) / 2) default)) startpos
          ((pos - 1) / 2) newitem
      else
        heap.set pos newitem
    else
      heap.set pos newitem
  | 0, heap, _, pos, newitem => heap.set pos newitem

/-- The child position CPython `heapq._siftup` picks at `pos`: the right
child `2*pos + 2` if it exists and the left child is not smaller than it,
otherwise the left child `2*pos + 1`. -/
def chooseChild (heap : List HNode) (pos endpos : Nat) : Nat :=
  if 2 * pos + 2 < endpos ∧
      ¬ hlt (heap.getD (2 * pos + 1) default) (heap.getD (2 * pos + 2) default)
  then 2 * pos + 2 else 2 * pos + 1

theorem chooseChild_gt (heap : List HNode) (pos endpos : Nat) :
    pos < chooseChild heap pos endpos := by
  unfold chooseChild; split <;> omega

theorem chooseChild_lt (heap : List HNode) (pos endpos : Nat)
    (h : 2 * pos + 1 < endpos) : chooseChild heap pos endpos < endpos := by
  unfold chooseChild; split <;> omega

/-- CPython `heapq._siftup` main loop: move the smaller child up into the
hole at `pos` until reaching a position with no left child; returns the
array after the moves together with the final hole position.  The first
argument is structural fuel: `pos` strictly increases towards `endpos`, so
any fuel `≥ endpos - pos` gives exactly the Python loop (at fuel `0`,
`endpos - pos = 0` and the loop would exit with the same result). -/
def siftupLoop : Nat → List HNode → Nat → Nat → List HNode × Nat
  | fuel + 1, heap, pos, endpos =>
    if 2 * pos + 1 < endpos then
      siftupLoop fuel (heap.set pos (heap.getD (chooseChild heap pos endpos) default))
        (chooseChild heap pos endpos) endpos
    else
      (heap, pos)
  | 0, heap, pos, _ => (heap, pos)

/-- CPython `heapq._siftup(heap, pos)`: bubble the hole to a leaf, write
`newitem` there, then `_siftdown` it back up (the final climb starts at
the hole position, so its own position bounds the fuel). -/
def siftup (heap : List HNode) (pos : Nat) : List HNode :=
  siftdownLoop (siftupLoop heap.length heap pos heap.length).2
    (siftupLoop heap.length heap pos heap.length).1 pos
    (siftupLoop heap.length heap pos heap.length).2 (heap.getD pos default)

/-- CPython `heapq.heappush`. -/
def heappush (heap : List HNode) (item : HNode) : List HNode :=
  siftdownLoop heap.length (heap ++ [item]) 0 heap.length item

/-- CPython `heapq.heappop`; `none` models the `IndexError` of `heap.pop()`
on an empty list.  `lastelt = heap.pop()` is the last element; if the
remainder is empty it is returned directly, otherwise it replaces the root
and is sifted down. -/
def heappop (heap : List HNode) : Option (HNode × List HNode) :=
  if h : heap = [] then none
  else if heap.dropLast = [] then some (heap.getLast h, [])
  else some (heap.dropLast.getD 0 default,
    siftup (heap.dropLast.set 0 (heap.getLast h)) 0)

/-! ### Basic list index lemmas used throughout -/

theorem hGetD_set_self : ∀ (l : List HNode) (i : Nat) (a d : HNode), i < l.length →
    (l.set i a).getD i d = a
  | _ :: _, 0, _, _, _ => rfl
  | _ :: xs, i + 1, a, d, h => hGetD_set_self xs i a d (by simpa using h)

theorem hGetD_set_ne : ∀ (l : List HNode) (i j : Nat) (a d : HNode), i ≠ j →
    (l.set i a).getD j d = l.getD j d
  | [], _, _, _, _, _ => by simp [List.getD]
  | _ :: _, 0, 0, _, _, h => absurd rfl h
  | _ :: _, 0, _ + 1, _, _, _ => rfl
  | _ :: _, _ + 1, 0, _, _, _ => rfl
  | _ :: xs, i + 1, j + 1, a, d, h =>
    hGetD_set_ne xs i j a d (fun hij => h (by omega))

theorem hGetD_append_left : ∀ (l m : List HNode) (j : Nat) (d : HNode),
    j < l.length → (l ++ m).getD j d = l.getD j d
  | _ :: _, _, 0, _, _ => rfl
  | _ :: xs, m, j + 1, d, h => hGetD_append_left xs m j d (by simpa using h)
  | [], _, _, _, h => by simp at h

theorem hGetD_append_self : ∀ (l : List HNode) (x d : HNode),
    (l ++ [x]).getD l.length d = x
  | [], _, _ => rfl
  | _ :: xs, x, d => hGetD_append_self xs x d

theorem hGetD_dropLast_zero : ∀ (l : List HNode) (d : HNode), l.dropLast ≠ [] →
    l.dropLast.getD 0 d = l.getD 0 d
  | [], _, h => absurd rfl h
  | [_], _, h => absurd rfl h
  | _ :: _ :: _, _, _ => rfl

/-! ### Multiset content of the heap operations -/

/-- Setting index `i` replaces the element there, as multisets. -/
theorem msOf_set (l : List HNode) (i : Nat) (a d : HNode) (h : i < l.length) :
    ((l.set i a : List HNode) : Multiset HNode) + {l.getD i d} =
      (l : Multiset HNode) + {a} := by
  have hset : l.set i a = l.take i ++ a :: l.drop (i + 1) :=
    List.set_eq_take_cons_drop a h
  have hdec : l = l.take i ++ l.getD i d :: l.drop (i + 1) := by
    conv_lhs => rw [← List.take_append_drop i l]
    rw [List.getD_eq_getElem l d h]
    rw [List.getElem_cons_drop]
  have hperm : (l.getD i d :: l.set i a).Perm (a :: l) := by
    rw [hset]
    conv_rhs => rw [hdec]
    have p1 : (l.getD i d :: (l.take i ++ a :: l.drop (i + 1))).Perm
        (l.getD i d :: a :: (l.take i ++ l.drop (i + 1))) :=
      List.Perm.cons _ List.perm_middle
    have p2 : (l.getD i d :: a :: (l.take i ++ l.drop (i + 1))).Perm
        (a :: l.getD i d :: (l.take i ++ l.drop (i + 1))) :=
      List.Perm.swap _ _ _
    have p3 : (a :: l.getD i d :: (l.take i ++ l.drop (i + 1))).Perm
        (a :: (l.take i ++ l.getD i d :: l.drop (i + 1))) :=
      List.Perm.cons _ List.perm_middle.symm
    exact p1.trans (p2.trans p3)
  calc ((l.set i a : List HNode) : Multiset HNode) + ({l.getD i d} : Multiset HNode)
      = {l.getD i d} + ((l.set i a : List HNode) : Multiset HNode) := add_comm _ _
    _ = ((l.getD i d :: l.set i a : List HNode) : Multiset HNode) := by
        rw [Multiset.singleton_add, Multiset.cons_coe]
    _ = ((a :: l : List HNode) : Multiset HNode) := Multiset.coe_eq_coe.mpr hperm
    _ = {a} + (l : Multiset HNode) := by rw [← Multiset.cons_coe, ← Multiset.singleton_add]
    _ = (l : Multiset HNode) + {a} := add_comm _ _

/-- Copy the element at `q` into `p`, then overwrite `q`: same content as
overwriting `p` directly. -/
theorem ms_set_set (heap : List HNode) (p q : Nat) (x : HNode) (hpq : p ≠ q)
    (hp : p < heap.length) (hq : q < heap.length) :
    (((heap.set p (heap.getD q default)).set q x : List HNode) : Multiset HNode) =
      ((heap.set p x : List HNode) : Multiset HNode) := by
  have hq' : q < (heap.set p (heap.getD q default)).length := by
    simpa using hq
  have e1 := msOf_set (heap.set p (heap.getD q default)) q x default hq'
  rw [hGetD_set_ne heap p q _ default hpq] at e1
  have e2 := msOf_set heap p (heap.getD q default) default hp
  have e3 := msOf_set heap p x default hp
  have e4 : (((heap.set p (heap.getD q default)).set q x : List HNode) : Multiset HNode)
      + {heap.getD q default} + {heap.getD p default}
      = ((heap.set p x : List HNode) : Multiset HNode) + {heap.getD q default}
        + {heap.getD p default} := by
    calc (((heap.set p (heap.getD q default)).set q x : List HNode) : Multiset HNode)
        + {heap.getD q default} + {heap.getD p default}
        = ((heap.set p (heap.getD q default) : List HNode) : Multiset HNode) + {x}
          + {heap.getD p default} := by rw [e1]
      _ = ((heap.set p (heap.getD q default) : List HNode) : Multiset HNode)
          + {heap.getD p default} + {x} := by abel
      _ = (heap : Multiset HNode) + {heap.getD q default} + {x} := by rw [e2]
      _ = (heap : Multiset HNode) + {x} + {heap.getD q default} := by abel
      _ = ((heap.set p x : List HNode) : Multiset HNode) + {heap.getD p default}
          + {heap.getD q default} := by rw [e3]
      _ = ((heap.set p x : List HNode) : Multiset HNode) + {heap.getD q default}
          + {heap.getD p default} := by abel
  exact add_right_cancel (add_right_cancel e4)

theorem siftdownLoop_ms : ∀ (fuel : Nat) (heap : List HNode) (s p : Nat) (x : HNode),
    p < heap.length →
    ((siftdownLoop fuel heap s p x : List HNode) : Multiset HNode) =
      ((heap.set p x : List HNode) : Multiset HNode) := by
  intro fuel
  induction fuel with
  | zero => intro heap s p x hp; rfl
  | succ fuel ih =>
    intro heap s p x hp
    by_cases h : s < p
    · by_cases hl : hlt x (heap.getD ((p - 1) / 2) default)
      · rw [siftdownLoop, if_pos h, if_pos hl]
        have hpp : (p - 1) / 2 < p := by
          have := Nat.div_le_self (p - 1) 2
          omega
        rw [ih _ s _ x (by simpa using Nat.lt_trans hpp hp)]
        exact ms_set_set heap p ((p - 1) / 2) x (by omega) hp (Nat.lt_trans hpp hp)
      · rw [siftdownLoop, if_pos h, if_neg hl]
    · rw [siftdownLoop, if_neg h]

theorem siftdownLoop_length : ∀ (fuel : Nat) (heap : List HNode) (s p : Nat) (x : HNode),
    (siftdownLoop fuel heap s p x).length = heap.length := by
  intro fuel
  induction fuel with
  | zero => intro heap s p x; simp [siftdownLoop]
  | succ fuel ih =>
    intro heap s p x
    by_cases h : s < p
    · by_cases hl : hlt x (heap.getD ((p - 1) / 2) default)
      · rw [siftdownLoop, if_pos h, if_pos hl]
        rw [ih]
        simp
      · rw [siftdownLoop, if_pos h, if_neg hl]
        simp
    · rw [siftdownLoop, if_neg h]
      simp

theorem siftupLoop_facts : ∀ (fuel : Nat) (heap : List HNode) (p endpos : Nat),
    endpos = heap.length → p < endpos →
    (siftupLoop fuel heap p endpos).1.length = heap.length ∧
    (siftupLoop fuel heap p endpos).2 < endpos ∧
    ∀ x, (((siftupLoop fuel heap p endpos).1.set (siftupLoop fuel heap p endpos).2 x :
            List HNode) : Multiset HNode) =
          ((heap.set p x : List HNode) : Multiset HNode) := by
  intro fuel
  induction fuel with
  | zero => intro heap p endpos he hp; exact ⟨rfl, hp, fun _ => rfl⟩
  | succ fuel ih =>
    intro heap p endpos he hp
    by_cases h : 2 * p + 1 < endpos
    · rw [siftupLoop, if_pos h]
      have hc : chooseChild heap p endpos < endpos := chooseChild_lt heap p endpos h
      have hcg : p < chooseChild heap p endpos := chooseChild_gt heap p endpos
      have he' : endpos =
          (heap.set p (heap.getD (chooseChild heap p endpos) default)).length := by
        simpa using he
      obtain ⟨ih1, ih2, ih3⟩ := ih _ _ _ he' hc
      refine ⟨by simpa using ih1, ih2, fun x => ?_⟩
      rw [ih3 x]
      exact ms_set_set heap p (chooseChild heap p endpos) x (by omega)
        (by omega) (by omega)
    · rw [siftupLoop, if_neg h]
      exact ⟨rfl, hp, fun _ => rfl⟩

theorem ms_length_eq (l l' : List HNode)
    (h : (l : Multiset HNode) = (l' : Multiset HNode)) : l.length = l'.length := by
  have := congrArg Multiset.card h
  simpa using this

theorem siftup_ms (heap : List HNode) (p : Nat) (hp : p < heap.length) :
    ((siftup heap p : List HNode) : Multiset HNode) = (heap : Multiset HNode) := by
  obtain ⟨f1, f2, f3⟩ := siftupLoop_facts heap.length heap p heap.length rfl hp
  show ((siftdownLoop (siftupLoop heap.length heap p heap.length).2
      (siftupLoop heap.length heap p heap.length).1 p
      (siftupLoop heap.length heap p heap.length).2 (heap.getD p default) : List HNode) :
        Multiset HNode) = (heap : Multiset HNode)
  rw [siftdownLoop_ms _ _ _ _ _ (by rw [f1]; exact f2)]
  rw [f3]
  have hms := msOf_set heap p (heap.getD p default) default hp
  exact add_right_cancel hms

theorem heappush_ms (heap : List HNode) (x : HNode) :
    ((heappush heap x : List HNode) : Multiset HNode) = x ::ₘ (heap : Multiset HNode) := by
  show ((siftdownLoop heap.length (heap ++ [x]) 0 heap.length x : List HNode) :
    Multiset HNode) = _
  rw [siftdownLoop_ms _ _ _ _ _ (by simp)]
  have hms := msOf_set (heap ++ [x]) heap.length x default (by simp)
  rw [hGetD_append_self] at hms
  have heq := add_right_cancel hms
  rw [heq]
  exact Multiset.coe_eq_coe.mpr (List.perm_append_singleton x heap)

theorem heappush_length (heap : List HNode) (x : HNode) :
    (heappush heap x).length = heap.length + 1 := by
  have := congrArg Multiset.card (heappush_ms heap x)
  simpa using this

theorem heappop_none_iff (heap : List HNode) : heappop heap = none ↔ heap = [] := by
  constructor
  · intro h
    by_contra hne
    rw [heappop, dif_neg hne] at h
    split at h <;> simp at h
  · intro h
    subst h
    rfl

theorem heappop_ms (heap : List HNode) (x : HNode) (h' : List HNode)
    (hpop : heappop heap = some (x, h')) :
    (heap : Multiset HNode) = x ::ₘ (h' : Multiset HNode) := by
  by_cases hne : heap = []
  · rw [heappop, dif_pos hne] at hpop
    simp at hpop
  · have hdec : heap.dropLast ++ [heap.getLast hne] = heap :=
      List.dropLast_append_getLast hne
    rw [heappop, dif_neg hne] at hpop
    by_cases hre : heap.dropLast = []
    · rw [if_pos hre] at hpop
      obtain ⟨hx, hh⟩ := Prod.mk.injEq .. ▸ Option.some_inj.mp hpop
      rw [← hx, ← hh]
      calc (heap : Multiset HNode)
          = ((heap.dropLast ++ [heap.getLast hne] : List HNode) : Multiset HNode) := by
            rw [hdec]
        _ = heap.getLast hne ::ₘ (([] : List HNode) : Multiset HNode) := by
            rw [hre]
            rfl
    · rw [if_neg hre] at hpop
      obtain ⟨hx, hh⟩ := Prod.mk.injEq .. ▸ Option.some_inj.mp hpop
      have hrpos : 0 < heap.dropLast.length := List.length_pos.mpr hre
      have hsu : ((siftup (heap.dropLast.set 0 (heap.getLast hne)) 0 : List HNode) :
            Multiset HNode)
          = ((heap.dropLast.set 0 (heap.getLast hne) : List HNode) : Multiset HNode) :=
        siftup_ms _ 0 (by simpa using hrpos)
      have hms := msOf_set heap.dropLast 0 (heap.getLast hne) default hrpos
      calc (heap : Multiset HNode)
          = ((heap.dropLast ++ [heap.getLast hne] : List HNode) : Multiset HNode) := by
            rw [hdec]
        _ = ((heap.dropLast : List HNode) : Multiset HNode) + {heap.getLast hne} := by
            rw [← Multiset.coe_add, Multiset.coe_singleton]
        _ = ((heap.dropLast.set 0 (heap.getLast hne) : List HNode) : Multiset HNode)
            + {heap.dropLast.getD 0 default} := hms.symm
        _ = x ::ₘ ((h' : List HNode) : Multiset HNode) := by
            rw [← hx, ← hh, hsu]
            rw [add_comm, Multiset.singleton_add]

theorem heappop_length (heap : List HNode) (x : HNode) (h' : List HNode)
    (hpop : heappop heap = some (x, h')) : heap.length = h'.length + 1 := by
  have := congrArg Multiset.card (heappop_ms heap x h' hpop)
  simpa using this

theorem heappop_fst (heap : List HNode) (x : HNode) (h' : List HNode)
    (hpop : heappop heap = some (x, h')) : x = heap.getD 0 default := by
  by_cases hne : heap = []
  · rw [heappop, dif_pos hne] at hpop
    simp at hpop
  · have hdec : heap.dropLast ++ [heap.getLast hne] = heap :=
      List.dropLast_append_getLast hne
    rw [heappop, dif_neg hne] at hpop
    by_cases hre : heap.dropLast = []
    · rw [if_pos hre] at hpop
      obtain ⟨hx, _⟩ := Prod.mk.injEq .. ▸ Option.some_inj.mp hpop
      rw [← hx]
      have : heap.getD 0 default = (heap.dropLast ++ [heap.getLast hne]).getD 0 default := by
        rw [hdec]
      rw [this, hre]
      rfl
    · rw [if_neg hre] at hpop
      obtain ⟨hx, _⟩ := Prod.mk.injEq .. ▸ Option.some_inj.mp hpop
      rw [← hx]
      exact hGetD_dropLast_zero heap default hre

/-! ## Tree construction (`BinaryTree.build_tree` with Huffman's
`create_node`)

`create_node(left, right)` makes a `HuffmanNode` whose frequency is the sum
of the children's frequencies. -/

def createNode (left right : HNode) : HNode :=
  .node (left.frequency + right.frequency) left right

/-- The `while heap:` loop of `build_tree`: pop the two smallest nodes,
push their merge; when the second pop raises `IndexError`, the first node
becomes the root.  `none` is the unreachable case of an initially empty
heap (`root_node` stays `None`).  The fuel is structural; the heap length
strictly decreases, so any fuel `≥ heap.length` gives exactly the Python
loop (at fuel `0` the heap is empty and the loop would exit the same
way). -/
def buildTreeLoopF : Nat → List HNode → Option HNode
  | 0, _ => none
  | fuel + 1, heap =>
    match heappop heap with
    | none => none
    | some (node1, h1) =>
      match heappop h1 with
      | none => some node1
      | some (node2, h2) => buildTreeLoopF fuel (heappush h2 (createNode node1 node2))

def buildTreeLoop (heap : List HNode) : Option HNode :=
  buildTreeLoopF heap.length heap

/-- `build_tree(values)`: push all the values, then run the merge loop. -/
def buildTree (values : List HNode) : Option HNode :=
  buildTreeLoop (values.foldl heappush [])

/-! ## Preorder traversal (`BinaryTree.preorder_traversal`)

The Python "preorder" traversal keeps the pending nodes in a `heapq` heap
(not a stack): pop a node, visit it, push its children. -/

def heapWeight (h : List HNode) : Nat :=
  ((h : Multiset HNode).map HNode.size).sum

theorem heapWeight_pop (heap : List HNode) (x : HNode) (h' : List HNode)
    (hpop : heappop heap = some (x, h')) :
    heapWeight heap = x.size + heapWeight h' := by
  rw [heapWeight, heappop_ms heap x h' hpop]
  simp [heapWeight]

theorem heapWeight_push (h : List HNode) (x : HNode) :
    heapWeight (heappush h x) = x.size + heapWeight h := by
  rw [heapWeight, heappush_ms]
  simp [heapWeight]

/-- The total size of the trees on the heap, as a plain list fold (used as
the fuel of the traversal). -/
def heapFuel (h : List HNode) : Nat := (h.map HNode.size).sum

/-- The visiting order of `preorder_traversal`: repeatedly pop the heap and
record the popped node (the `traversal_action` call), pushing its children
(left first, then right) when present.  The fuel is structural; the total
node count strictly decreases, so any fuel `≥ heapFuel heap` gives exactly
the Python loop (at fuel `0` the heap is empty and the loop would exit the
same way). -/
def preorderLoopF : Nat → List HNode → List HNode → List HNode
  | 0, _, visited => visited
  | fuel + 1, heap, visited =>
    match heappop heap with
    | none => visited
    | some (cur, h1) =>
      match cur with
      | .leaf f v => preorderLoopF fuel h1 (visited ++ [.leaf f v])
      | .node f l r =>
        preorderLoopF fuel (heappush (heappush h1 l) r) (visited ++ [.node f l r])

/-- `preorder_traversal()` pushes `self.root_node` on a fresh heap and runs
the loop; the result is the sequence of nodes passed to
`traversal_action`. -/
def preorderVisit (root : HNode) : List HNode :=
  preorderLoopF (heapFuel (heappush [] root)) (heappush [] root) []

/-! ## Bit strings and byte conversion

Python binary strings are `List Bool`, most significant bit first. -/

/-- `int(s, 2)` on a nonempty bit string (and the value of any bit
string). -/
def bitsToNat (bs : List Bool) : Nat :=
  bs.foldl (fun n b => 2 * n + (if b then 1 else 0)) 0

/-- The minimal big-endian binary digits of `n` (empty for `0`), with
structural fuel; any fuel `≥ n` computes the digits exactly (at fuel `0`
the value is `0` and the recursion would stop anyway). -/
def natBitsF : Nat → Nat → List Bool
  | _, 0 => []
  | 0, _ + 1 => []
  | fuel + 1, m + 1 => natBitsF fuel ((m + 1) / 2) ++ [(m + 1) % 2 == 1]

def natBits (n : Nat) : List Bool := natBitsF n n

/-- Python `int.bit_length()`. -/
def bitLen (n : Nat) : Nat := (natBits n).length

/-- Python `format(n, "b")`: the rendering of `0` is `"0"`, not `""`. -/
def pyBin (n : Nat) : List Bool := if n = 0 then [false] else natBits n

/-- Python `format(n, "0{w}b")`: left-pad the rendering with zeros to width
`w`; never truncates. -/
def pyFormatB (w n : Nat) : List Bool :=
  List.replicate (w - (pyBin n).length) false ++ pyBin n

/-- Python `v.to_bytes(nbytes, byteorder='big')` (big-endian). -/
def natToBytesBE : Nat → Nat → List Nat
  | 0, _ => []
  | n + 1, v => natToBytesBE n (v / 256) ++ [v % 256]

/-- Python `int.from_bytes(bytes, 'big')`. -/
def bytesToNat (l : List Nat) : Nat := l.foldl (fun n b => 256 * n + b) 0

/-! ## Huffman compression (`Huffman.compress_file`) -/

/-- `__find_bytes_occurrences`: count one byte into the dict (Python dicts
keep insertion order; a new key is appended). -/
def bumpKey : List (Nat × Nat) → Nat → List (Nat × Nat)
  | [], b => [(b, 1)]
  | (k, v) :: rest, b =>
    if k = b then (k, v + 1) :: rest else (k, v) :: bumpKey rest b

def countOccurrences (l : List Nat) : List (Nat × Nat) := l.foldl bumpKey []

/-- `[HuffmanNode(self.bytes_occurrences[byte], byte) for byte in
self.bytes_occurrences]`. -/
def leavesOfInput (l : List Nat) : List HNode :=
  (countOccurrences l).map (fun p => .leaf p.2 p.1)

/-- `Huffman.traversal_action`: a leaf contributes `"1"` plus its 8-bit
value, an internal node contributes `"0"`. -/
def huffAction (n : HNode) : List Bool :=
  if n.isLeaf then true :: pyFormatB 8 n.value else [false]

/-- `self.encoded_tree` after `self.preorder_traversal()`. -/
def encodedTreeOf (root : HNode) : List Bool :=
  (preorderVisit root).foldl (fun acc n => acc ++ huffAction n) []

/-- `__create_huffman_code`, with the dict updates flattened into the list
of `(leaf value, code)` assignments in traversal order (left gets `"0"`,
right gets `"1"`). -/
def dfsCodes : HNode → List Bool → List (Nat × List Bool)
  | .leaf _ v, code => [(v, code)]
  | .node _ l r, code => dfsCodes l (code ++ [false]) ++ dfsCodes r (code ++ [true])

/-- Python dict assignment `d[k] = v`: overwrite in place or append. -/
def assocSet : List (Nat × List Bool) → Nat → List Bool → List (Nat × List Bool)
  | [], k, v => [(k, v)]
  | (k', v') :: rest, k, v =>
    if k' = k then (k', v) :: rest else (k', v') :: assocSet rest k v

/-- `self.huffman_code` after `__create_huffman_code(self.root_node)`. -/
def huffTable (root : HNode) : List (Nat × List Bool) :=
  (dfsCodes root []).foldl (fun acc p => assocSet acc p.1 p.2) []

/-- `self.huffman_code[byte]` (the default is unreachable on bytes of the
input). -/
def codeOf (table : List (Nat × List Bool)) (b : Nat) : List Bool :=
  ((table.find? (fun p => p.1 == b)).map Prod.snd).getD []

/-- `encoded_string`: the guard `"1"` then each input byte's code. -/
def huffEncodedString (table : List (Nat × List Bool)) (l : List Nat) : List Bool :=
  true :: l.foldl (fun acc b => acc ++ codeOf table b) []

/-- `__compress`'s return value:
`int(encoded_string, 2).to_bytes((len(encoded_string) + 7) // 8, 'big')`. -/
def huffDataBytes (table : List (Nat × List Bool)) (l : List Nat) : List Nat :=
  natToBytesBE (((huffEncodedString table l).length + 7) / 8)
    (bitsToNat (huffEncodedString table l))

/-- `final_encoded_tree`: guard-replace the tree encoding's first bit with
`"1"`, then convert using the bit length. -/
def huffTreeBytes (t : HNode) : List Nat :=
  natToBytesBE ((bitLen (bitsToNat (true :: (encodedTreeOf t).drop 1)) + 7) / 8)
    (bitsToNat (true :: (encodedTreeOf t).drop 1))

/-- The full artifact `final_encoded_tree + compressed` written by
`compress_file`; `none` if `build_tree` left `root_node` as `None`
(impossible for nonempty input). -/
def huffArtifact (l : List Nat) : Option (List Nat) :=
  match buildTree (leavesOfInput l) with
  | none => none
  | some t => some (huffTreeBytes t ++ huffDataBytes (huffTable t) l)

/-- `Huffman.compress_file` (modulo file IO): empty-input check, build the
artifact, no-gain check, write. -/
def huffmanCompressFile (l : List Nat) : CRes :=
  if l = [] then .err .emptyInput
  else match huffArtifact l with
    | none => .err .crash
    | some a => if l.length ≤ a.length then .err .noGain else .ok a

/-! ## Huffman decompression (`Huffman.decompress_file`) -/

/-- `binary_string`: each artifact byte rendered as `format(byte, "08b")`,
concatenated. -/
def bytesToBits (l : List Nat) : List Bool :=
  l.foldl (fun acc b => acc ++ pyFormatB 8 b) []

/-- `__build_tree_from(binary_string, current_node, current_index)`:
parse the two children of an internal node from the bit string, returning
them and the index just past the encoding.  `none` models the `IndexError`
(index out of range) / `ValueError` (`int("", 2)`) crashes of the original.
The fuel only bounds the recursion depth; `s.length + 2` always suffices
because every nested call strictly advances the index. -/
def buildChildren (s : List Bool) : Nat → Nat → Option (HNode × HNode × Nat)
  | 0, _ => none
  | fuel + 1, idx =>
    match s.get? idx with
    | none => none
    | some b =>
      let leftRes : Option (HNode × Nat) :=
        if b then
          match (s.drop (idx + 1)).take 8 with
          | [] => none
          | seg => some (.leaf 0 (bitsToNat seg), idx + 9)
        else
          match buildChildren s fuel (idx + 1) with
          | none => none
          | some (ll, lr, i2) => some (.node 0 ll lr, i2)
      match leftRes with
      | none => none
      | some (leftN, i2) =>
        match s.get? i2 with
        | none => none
        | some b2 =>
          if b2 then
            match (s.drop (i2 + 1)).take 8 with
            | [] => none
            | seg => some (leftN, .leaf 0 (bitsToNat seg), i2 + 9)
          else
            match buildChildren s fuel (i2 + 1) with
            | none => none
            | some (rl, rr, i3) => some (leftN, .node 0 rl rr, i3)

/-- `build_tree_from(binary_string)`: the root is always created as an
internal node (`create_node()` with `value = 0`) whose two children are
parsed from index 0; returns the rebuilt root and `tree_end_index`. -/
def buildTreeFrom (s : List Bool) : Option (HNode × Nat) :=
  match buildChildren s (s.length + 2) 0 with
  | none => none
  | some (l, r, i) => some (.node 0 l r, i)

/-- One step of `__decompress`'s walk: `current.left` / `current.right`;
on a leaf both are `None`. -/
def stepChild (n : HNode) (b : Bool) : Option HNode :=
  match n with
  | .node _ l r => some (if b then r else l)
  | .leaf _ _ => none

/-- The `for i in compressed_data_bits` loop of `__decompress`: when the
current node is a leaf, emit its value and restart at the root before
consuming the bit; `current` may become `None` (stepping off a leaf), which
crashes only if another bit is then processed. -/
def huffWalkLoop (root : HNode) : Option HNode → List Nat → List Bool → Option (List Nat)
  | _, acc, [] => some acc
  | none, _, _ :: _ => none
  | some cur, acc, b :: rest =>
    match cur with
    | .leaf _ v => huffWalkLoop root (stepChild root b) (acc ++ [v]) rest
    | .node f l r => huffWalkLoop root (stepChild (.node f l r) b) acc rest

/-- `Huffman.decompress_file` (modulo file IO): strip leading zeros and the
guard bit, rebuild the tree, strip again, then walk the tree. -/
def huffmanDecompressFile (l : List Nat) : CRes :=
  if l = [] then .err .emptyInput
  else
    match (bytesToBits l).dropWhile (fun b => b = false) with
    | [] => .err .crash
    | _ :: rest =>
      match buildTreeFrom rest with
      | none => .err .crash
      | some (root, treeEnd) =>
        match (rest.drop treeEnd).dropWhile (fun b => b = false) with
        | [] => .err .crash
        | _ :: rest2 =>
          match huffWalkLoop root (some root) [] rest2 with
          | none => .err .crash
          | some out => .ok out

/-- `decompress(compress(B))` for Huffman, when compression succeeded. -/
def huffRoundTrip (l : List Nat) : CRes :=
  match huffmanCompressFile l with
  | .err e => .err e
  | .ok a => huffmanDecompressFile a

/-! ## LZW (`lzw.py`) -/

/-- `__build_bytes_dictionary()` (compression direction): byte sequence
keys `[b]` mapped to codes `b`, for `b` in `range(256)`. -/
def lzwInitDictC : List (List Nat × Nat) :=
  (List.range 256).map (fun b => ([b], b))

/-- `__build_bytes_dictionary(decompression=True)`: integer keys to byte
sequences. -/
def lzwInitDictD : List (Nat × List Nat) :=
  (List.range 256).map (fun b => (b, [b]))

/-- `key in dict` / `dict[key]` for the compression dictionary. -/
def cfind (d : List (List Nat × Nat)) (k : List Nat) : Option Nat :=
  (d.find? (fun p => p.1 == k)).map Prod.snd

/-- `dict[code]` for the decompression dictionary. -/
def dfind (d : List (Nat × List Nat)) (k : Nat) : Option (List Nat) :=
  (d.find? (fun p => p.1 == k)).map Prod.snd

/-- The compression loop state: dictionary, current `pattern`, emitted
codes, `biggest_integer`. -/
structure LZWState where
  dict : List (List Nat × Nat)
  pattern : List Nat
  compressed : List Nat
  biggest : Nat
  deriving Repr, DecidableEq

/-- One iteration of the `for byte in bytes_list` loop of
`LZW.__compress`. -/
def lzwStep (s : LZWState) (b : Nat) : LZWState :=
  match cfind s.dict (s.pattern ++ [b]) with
  | some _ => { s with pattern := s.pattern ++ [b] }
  | none =>
    { dict := s.dict ++ [(s.pattern ++ [b], s.dict.length)],
      pattern := [b],
      compressed := s.compressed ++
        [(cfind (s.dict ++ [(s.pattern ++ [b], s.dict.length)]) s.pattern).getD 0],
      biggest := max s.biggest
        ((cfind (s.dict ++ [(s.pattern ++ [b], s.dict.length)]) s.pattern).getD 0) }

/-- `LZW.__compress`: run the loop, then emit the code of the remaining
pattern; returns the emitted code list and `biggest_integer`.  The `getD 0`
defaults are unreachable: for a nonempty input the final pattern is always
a dictionary key. -/
def lzwCodes (l : List Nat) : List Nat × Nat :=
  let s := l.foldl lzwStep ⟨lzwInitDictC, [], [], 0⟩
  let last := (cfind s.dict s.pattern).getD 0
  (s.compressed ++ [last], max s.biggest last)

/-- The overflow guard `biggest_integer > 2 ** (2 ** 5)`. -/
def lzwOverflow (l : List Nat) : Prop := 2 ^ (2 ^ 5) < (lzwCodes l).2

instance (l : List Nat) : Decidable (lzwOverflow l) := by
  unfold lzwOverflow; infer_instance

/-- `self.integers_size_bits = biggest_integer.bit_length()`. -/
def lzwWidth (l : List Nat) : Nat := bitLen (lzwCodes l).2

/-- `binary_string_compressed`: guard `"1"`, the 5-bit width field, then
each code in a width-sized field. -/
def lzwBitString (l : List Nat) : List Bool :=
  true :: pyFormatB 5 (lzwWidth l) ++
    ((lzwCodes l).1.map (fun c => pyFormatB (lzwWidth l) c)).join

/-- `to_store_in_file`: the bit string as a big int, converted to bytes by
its bit length. -/
def lzwArtifact (l : List Nat) : List Nat :=
  natToBytesBE ((bitLen (bitsToNat (lzwBitString l)) + 7) / 8)
    (bitsToNat (lzwBitString l))

/-- `LZW.compress_file` (modulo file IO). -/
def lzwCompressFile (l : List Nat) : CRes :=
  if l = [] then .err .emptyInput
  else if lzwOverflow l then .err .overflow
  else if l.length ≤ (lzwArtifact l).length then .err .noGain
  else .ok (lzwArtifact l)

/-! ## LZW decompression (`LZW.decompress_file` / `LZW.__decompress`) -/

/-- The codeword slicing loop
`for i in range(6, len(bits_string), w): int(bits[i:i+w], 2)`, written on
the remaining bits (`wm1 + 1` is the width `w ≥ 1`; `w = 0` is rejected
before this loop is reached, as `range` with step 0 raises).  The fuel is
structural; the remaining length strictly decreases, so any fuel
`≥ bs.length` gives exactly the Python loop. -/
def lzwSliceF (wm1 : Nat) : Nat → List Bool → List Nat
  | 0, _ => []
  | _ + 1, [] => []
  | fuel + 1, b :: rest => bitsToNat ((b :: rest).take (wm1 + 1)) ::
      lzwSliceF wm1 fuel ((b :: rest).drop (wm1 + 1))

def lzwSlice (wm1 : Nat) (bs : List Bool) : List Nat := lzwSliceF wm1 bs.length bs

/-- The `for new_code in compressed_bytes_list[1:]` loop of
`__decompress`.  `firstByte` is Python's `first_byte` (`none` before the
first iteration); a `none` result is an uncaught exception (`TypeError` on
`None + ...`, `KeyError`, `IndexError`). -/
def lzwDecodeLoop (dict : List (Nat × List Nat)) (previous : Nat)
    (firstByte : Option (List Nat)) (acc : List Nat) :
    List Nat → Option (List Nat)
  | [] => some acc
  | newCode :: rest =>
    let translationO : Option (List Nat) :=
      match dfind dict newCode with
      | some t => some t
      | none =>
        match firstByte, dfind dict previous with
        | some fb, some prevT => some (fb ++ prevT)
        | _, _ => none
    match translationO with
    | none => none
    | some translation =>
      match translation with
      | [] => none
      | t0 :: _ =>
        match dfind dict previous with
        | none => none
        | some prevT =>
          lzwDecodeLoop (dict ++ [(dict.length, prevT ++ [t0])]) newCode
            (some [t0]) (acc ++ translation) rest

/-- `LZW.__decompress(compressed_bytes_list)`. -/
def lzwDecode (codes : List Nat) : Option (List Nat) :=
  match codes with
  | [] => none
  | c0 :: rest =>
    match dfind lzwInitDictD c0 with
    | none => none
    | some t0 => lzwDecodeLoop lzwInitDictD c0 none t0 rest

/-- `bits_string_compressed = format(int.from_bytes(bytes_list, 'big'),
"0b")` in `decompress_file`. -/
def lzwReadBits (l : List Nat) : List Bool := pyBin (bytesToNat l)

/-- `self.integers_size_bits = int(bits_string_compressed[1:6], 2)`:
the width field read back from the artifact. -/
def lzwReadWidth (l : List Nat) : Nat := bitsToNat (((lzwReadBits l).drop 1).take 5)

/-- `LZW.decompress_file` (modulo file IO): read the big int, take its
binary rendering, read the 5-bit width field after the guard bit, slice the
remaining bits into width-sized codes and decode them. -/
def lzwDecompressFile (l : List Nat) : CRes :=
  if l = [] then .err .emptyInput
  else
    match ((lzwReadBits l).drop 1).take 5 with
    | [] => .err .crash
    | _ :: _ =>
      match lzwReadWidth l with
      | 0 => .err .crash
      | wm1 + 1 =>
        match lzwDecode (lzwSlice wm1 ((lzwReadBits l).drop 6)) with
        | none => .err .crash
        | some out => .ok out

/-- `decompress(compress(B))` for LZW, when compression succeeded. -/
def lzwRoundTrip (l : List Nat) : CRes :=
  match lzwCompressFile l with
  | .err e => .err e
  | .ok a => lzwDecompressFile a

/-! ## Claims -/

/-- C1: the claim says that for every non-empty byte sequence `B` whose
Huffman compression succeeds, decompressing the produced artifact yields
exactly `B`.  The code violates this: `Huffman.__decompress` only emits a
leaf's value at the start of the *next* bit's iteration, so the final
symbol of the stream is never emitted.  On `B = AAAABBBB` compression
succeeds (5 < 8 bytes) but the round trip returns `AAAABBB`, dropping the
final byte. -/
theorem c1_huffman_roundtrip_loses_final_byte :
    huffmanCompressFile [65, 65, 65, 65, 66, 66, 66, 66] = .ok [6, 131, 66, 1, 15] ∧
    huffRoundTrip [65, 65, 65, 65, 66, 66, 66, 66] = .ok [65, 65, 65, 65, 66, 66, 66] ∧
    huffRoundTrip [65, 65, 65, 65, 66, 66, 66, 66] ≠
      .ok [65, 65, 65, 65, 66, 66, 66, 66] := by
  refine ⟨by decide, by decide, by decide⟩

/-- C2: the claim says that for every non-empty byte sequence `B` whose LZW
compression succeeds, decompressing the produced artifact yields exactly
`B`.  The code violates this: on `B` = 20 copies of byte 97 compression
succeeds (8 < 20 bytes), but the decoder meets the self-referential code
256 on its second step while `first_byte` is still `None`, so
`first_byte + ...` raises a `TypeError` and no output is produced. -/
theorem c2_lzw_roundtrip_crashes_on_repeated_byte :
    lzwCompressFile (List.replicate 20 97) = .ok [10, 76, 48, 8, 12, 10, 7, 3] ∧
    lzwRoundTrip (List.replicate 20 97) = .err .crash := by
  refine ⟨by decide, by decide⟩

/-- C3: the claim says a single-repeated-byte input degenerates to a tree
that is a single leaf (true) and still round-trips through Huffman (false).
On 16 copies of byte 65 the tree is the bare leaf, compression succeeds
(3 < 16 bytes), but `build_tree_from` in `decompress_file` assumes the
root is an internal node and runs off the end of the bit string
(`int("", 2)` / index out of range), so decompression crashes. -/
theorem c3_huffman_single_byte_tree_is_leaf_but_decompress_crashes :
    buildTree (leavesOfInput (List.replicate 16 65)) = some (.leaf 16 65) ∧
    huffmanCompressFile (List.replicate 16 65) = .ok [1, 65, 1] ∧
    huffRoundTrip (List.replicate 16 65) = .err .crash := by
  refine ⟨by decide, by decide, by decide⟩

/-- C8: the claim says the decoder resolves an unknown (self-referential)
codeword as `previous_translation + previous_translation[0]`.  The code
instead computes `first_byte + dict[previous_code]`, i.e. it *prepends* the
first byte: on the encoder output of `abababab`, namely codes
`[97, 98, 256, 258, 98]`, the unknown code 258 is translated as
`aab` (97,97,98) rather than `aba`, so the decode result differs from the
original input in which those codes were produced. -/
theorem c8_lzw_unknown_code_prepends_first_byte :
    (lzwCodes [97, 98, 97, 98, 97, 98, 97, 98]).1 = [97, 98, 256, 258, 98] ∧
    lzwDecode [97, 98, 256, 258, 98] = some [97, 98, 97, 98, 97, 97, 98, 98] ∧
    lzwDecode [97, 98, 256, 258, 98] ≠ some [97, 98, 97, 98, 97, 98, 97, 98] := by
  refine ⟨by decide, by decide, by decide⟩

/-- C9: compress and decompress of both codecs fail with the Empty-Input
error (`IOError("File is empty !")`) on a zero-length input, producing no
output. -/
theorem c9_empty_input_errors :
    huffmanCompressFile [] = .err .emptyInput ∧
    huffmanDecompressFile [] = .err .emptyInput ∧
    lzwCompressFile [] = .err .emptyInput ∧
    lzwDecompressFile [] = .err .emptyInput := by
  refine ⟨by decide, by decide, by decide, by decide⟩

/-! ## The no-gain rule (C6) -/

theorem bumpKey_ne_nil (acc : List (Nat × Nat)) (b : Nat) : bumpKey acc b ≠ [] := by
  cases acc with
  | nil => simp [bumpKey]
  | cons p rest =>
    obtain ⟨k, v⟩ := p
    by_cases h : k = b <;> simp [bumpKey, h]

theorem foldl_bumpKey_ne_nil : ∀ (l : List Nat) (acc : List (Nat × Nat)), acc ≠ [] →
    l.foldl bumpKey acc ≠ []
  | [], _, h => h
  | b :: rest, acc, _ => foldl_bumpKey_ne_nil rest (bumpKey acc b) (bumpKey_ne_nil acc b)

theorem countOccurrences_ne_nil (l : List Nat) (h : l ≠ []) :
    countOccurrences l ≠ [] := by
  cases l with
  | nil => exact absurd rfl h
  | cons b rest =>
    show (b :: rest).foldl bumpKey [] ≠ []
    rw [List.foldl_cons]
    exact foldl_bumpKey_ne_nil rest (bumpKey [] b) (bumpKey_ne_nil [] b)

theorem heappop_some_of_ne_nil (heap : List HNode) (h : heap ≠ []) :
    ∃ x h', heappop heap = some (x, h') := by
  rw [heappop, dif_neg h]
  by_cases hre : heap.dropLast = []
  · rw [if_pos hre]
    exact ⟨_, _, rfl⟩
  · rw [if_neg hre]
    exact ⟨_, _, rfl⟩

theorem buildTreeLoopF_isSome : ∀ (fuel : Nat) (heap : List HNode), heap ≠ [] →
    heap.length ≤ fuel → ∃ t, buildTreeLoopF fuel heap = some t := by
  intro fuel
  induction fuel with
  | zero =>
    intro heap hne hlen
    exact absurd (List.length_eq_zero.mp (Nat.le_zero.mp hlen)) hne
  | succ fuel ih =>
    intro heap hne hlen
    obtain ⟨x, h1, hpop⟩ := heappop_some_of_ne_nil heap hne
    cases hpop2 : heappop h1 with
    | none =>
      refine ⟨x, ?_⟩
      simp only [buildTreeLoopF, hpop, hpop2]
    | some p =>
      obtain ⟨node2, h2⟩ := p
      have l1 := heappop_length heap x h1 hpop
      have l2 := heappop_length h1 node2 h2 hpop2
      have hlen2 : (heappush h2 (createNode x node2)).length ≤ fuel := by
        rw [heappush_length]
        omega
      have hne2 : heappush h2 (createNode x node2) ≠ [] := by
        intro h0
        have := congrArg List.length h0
        rw [heappush_length] at this
        simp at this
      obtain ⟨t, ht⟩ := ih _ hne2 hlen2
      refine ⟨t, ?_⟩
      simp only [buildTreeLoopF, hpop, hpop2]
      exact ht

theorem foldl_heappush_length : ∀ (l : List HNode) (acc : List HNode),
    (l.foldl heappush acc).length = acc.length + l.length
  | [], _ => by simp
  | x :: rest, acc => by
    rw [List.foldl_cons, foldl_heappush_length rest (heappush acc x), heappush_length]
    simp
    omega

theorem huffArtifact_isSome (l : List Nat) (h : l ≠ []) :
    ∃ a, huffArtifact l = some a := by
  have hleaves : (leavesOfInput l).length ≠ 0 := by
    simp only [leavesOfInput, List.length_map]
    intro h0
    exact countOccurrences_ne_nil l h (List.length_eq_zero.mp h0)
  have hheap : ((leavesOfInput l).foldl heappush []).length = (leavesOfInput l).length := by
    rw [foldl_heappush_length]
    simp
  have hne : (leavesOfInput l).foldl heappush [] ≠ [] := by
    intro h0
    rw [h0] at hheap
    exact hleaves hheap.symm
  obtain ⟨t, ht⟩ := buildTreeLoopF_isSome _ _ hne (le_of_eq hheap)
  exact ⟨_, by rw [huffArtifact, buildTree, buildTreeLoop, hheap, ht]⟩

/-- C6: for both codecs, on a non-empty input the No-Gain error is raised
exactly when the fully constructed artifact is at least as large as the
input (`len(bytes_list) <= total_file_size`), the artifact always being
fully constructed before the comparison; an aborted compress produces no
output (the error constructor carries none).  For LZW "fully constructed"
requires the width-overflow guard not to fire, since that guard aborts
before assembly. -/
theorem c6_no_gain_iff (l : List Nat) (hne : l ≠ []) :
    (∃ a, huffArtifact l = some a) ∧
    (∀ a, huffArtifact l = some a →
      (huffmanCompressFile l = .err .noGain ↔ l.length ≤ a.length)) ∧
    (¬ lzwOverflow l →
      (lzwCompressFile l = .err .noGain ↔ l.length ≤ (lzwArtifact l).length)) := by
  refine ⟨huffArtifact_isSome l hne, fun a ha => ?_, fun hov => ?_⟩
  · rw [huffmanCompressFile, if_neg hne, ha]
    by_cases hc : l.length ≤ a.length
    · simp [hc]
    · simp [hc]
  · rw [lzwCompressFile, if_neg hne, if_neg hov]
    by_cases hc : l.length ≤ (lzwArtifact l).length
    · simp [hc]
    · simp [hc]

/-- Witness for C6 at the one-byte input `[65]`: the artifacts of both
codecs have at least one byte, so both compressions abort with No-Gain. -/
theorem c6_no_gain_iff_witness :
    huffmanCompressFile [65] = .err .noGain ∧ lzwCompressFile [65] = .err .noGain := by
  obtain ⟨⟨a, ha⟩, h2, h3⟩ := c6_no_gain_iff [65] (by decide)
  constructor
  · rw [h2 a ha]
    have hval : huffArtifact [65] = some [1, 65, 1] := by decide
    have haa : a = [1, 65, 1] := by
      rw [hval] at ha
      exact (Option.some_inj.mp ha).symm
    rw [haa]
    decide
  · rw [h3 (by decide)]
    decide

/-! ## Bit-string arithmetic lemmas (for C4) -/

theorem natBitsF_irrel : ∀ (f1 f2 n : Nat), n ≤ f1 → n ≤ f2 →
    natBitsF f1 n = natBitsF f2 n := by
  intro f1
  induction f1 with
  | zero =>
    intro f2 n h1 _
    have hn : n = 0 := by omega
    subst hn
    cases f2 <;> rfl
  | succ g ih =>
    intro f2 n h1 h2
    cases n with
    | zero => cases f2 <;> rfl
    | succ m =>
      cases f2 with
      | zero => omega
      | succ h =>
        show natBitsF (g + 1) (m + 1) = natBitsF (h + 1) (m + 1)
        simp only [natBitsF]
        congr 1
        exact ih h ((m + 1) / 2) (by omega) (by omega)

theorem natBits_succ (m : Nat) :
    natBits (m + 1) = natBits ((m + 1) / 2) ++ [(m + 1) % 2 == 1] := by
  show natBitsF (m + 1) (m + 1) = _
  simp only [natBitsF]
  congr 1
  exact natBitsF_irrel m ((m + 1) / 2) ((m + 1) / 2) (by omega) (by omega)

theorem bitsToNat_append_bit (xs : List Bool) (b : Bool) :
    bitsToNat (xs ++ [b]) = 2 * bitsToNat xs + (if b then 1 else 0) := by
  simp [bitsToNat, List.foldl_append]

theorem bitsToNat_natBits : ∀ n, bitsToNat (natBits n) = n := by
  intro n
  induction n using Nat.strong_induction_on with
  | _ n ih =>
    cases n with
    | zero => rfl
    | succ m =>
      rw [natBits_succ, bitsToNat_append_bit, ih ((m + 1) / 2) (by omega)]
      rcases Nat.mod_two_eq_zero_or_one (m + 1) with h | h <;> simp [h] <;> omega

theorem natBits_length_succ (m : Nat) :
    (natBits (m + 1)).length = (natBits ((m + 1) / 2)).length + 1 := by
  rw [natBits_succ]
  simp

theorem lt_two_pow_bitLen : ∀ n, n < 2 ^ bitLen n := by
  intro n
  induction n using Nat.strong_induction_on with
  | _ n ih =>
    cases n with
    | zero => simp [bitLen, natBits]
    | succ m =>
      show m + 1 < 2 ^ (natBits (m + 1)).length
      rw [natBits_length_succ, pow_succ]
      have := ih ((m + 1) / 2) (by omega)
      show m + 1 < 2 ^ (natBits ((m + 1) / 2)).length * 2
      have h2 : (m + 1) / 2 < 2 ^ bitLen ((m + 1) / 2) := this
      rw [bitLen] at h2
      omega

theorem bitLen_le_of_lt_pow : ∀ n w, n < 2 ^ w → bitLen n ≤ w := by
  intro n
  induction n using Nat.strong_induction_on with
  | _ n ih =>
    intro w hw
    cases n with
    | zero => simpa [bitLen, natBits, natBitsF] using Nat.zero_le w
    | succ m =>
      cases w with
      | zero => simp at hw
      | succ u =>
        show (natBits (m + 1)).length ≤ u + 1
        rw [natBits_length_succ]
        have hdiv : (m + 1) / 2 < 2 ^ u := by
          rw [pow_succ] at hw
          omega
        have := ih ((m + 1) / 2) (by omega) u hdiv
        rw [bitLen] at this
        omega

theorem bitsToNat_shift : ∀ (ys : List Bool) (v : Nat),
    ys.foldl (fun n b => 2 * n + (if b then 1 else 0)) v =
      v * 2 ^ ys.length + bitsToNat ys := by
  intro ys
  induction ys with
  | nil => intro v; simp [bitsToNat]
  | cons y ys ih =>
    intro v
    rw [List.foldl_cons]
    rw [ih (2 * v + (if y then 1 else 0))]
    have hY : bitsToNat (y :: ys) = (if y then 1 else 0) * 2 ^ ys.length + bitsToNat ys := by
      show (y :: ys).foldl (fun n b => 2 * n + (if b then 1 else 0)) 0 = _
      rw [List.foldl_cons]
      rw [ih (2 * 0 + (if y then 1 else 0))]
      ring_nf
    rw [hY]
    cases y <;> simp [List.length_cons, pow_succ] <;> ring

theorem bitsToNat_cons (b : Bool) (bs : List Bool) :
    bitsToNat (b :: bs) = (if b then 1 else 0) * 2 ^ bs.length + bitsToNat bs := by
  show (b :: bs).foldl (fun n b => 2 * n + (if b then 1 else 0)) 0 = _
  rw [List.foldl_cons, bitsToNat_shift]
  ring_nf

theorem bitsToNat_true_pos (bs : List Bool) : 0 < bitsToNat (true :: bs) := by
  rw [bitsToNat_cons]
  have : 0 < 2 ^ bs.length := Nat.pos_pow_of_pos _ (by omega)
  simp

theorem natBits_bitsToNat_true (bs : List Bool) :
    natBits (bitsToNat (true :: bs)) = true :: bs := by
  induction bs using List.reverseRecOn with
  | nil => rfl
  | append_singleton xs b ih =>
    have hcons : (true :: (xs ++ [b])) = (true :: xs) ++ [b] := rfl
    rw [hcons, bitsToNat_append_bit]
    have hv : 0 < bitsToNat (true :: xs) := bitsToNat_true_pos xs
    obtain ⟨m, hm⟩ : ∃ m, 2 * bitsToNat (true :: xs) + (if b then 1 else 0) = m + 1 :=
      ⟨2 * bitsToNat (true :: xs) + (if b then 1 else 0) - 1, by cases b <;> simp <;> omega⟩
    rw [hm, natBits_succ, ← hm]
    have hdiv : (2 * bitsToNat (true :: xs) + (if b then 1 else 0)) / 2 =
        bitsToNat (true :: xs) := by
      cases b <;> simp <;> omega
    have hmod : ((2 * bitsToNat (true :: xs) + (if b then 1 else 0)) % 2 == 1) = b := by
      cases b <;> simp <;> omega
    rw [hdiv, hmod, ih]

theorem replicate_false_foldl : ∀ (k : Nat),
    (List.replicate k false).foldl (fun n b => 2 * n + (if b then 1 else 0)) 0 = 0 := by
  intro k
  induction k with
  | zero => rfl
  | succ j ih =>
    rw [List.replicate_succ, List.foldl_cons]
    simpa using ih

theorem bitsToNat_replicate_false_append (k : Nat) (xs : List Bool) :
    bitsToNat (List.replicate k false ++ xs) = bitsToNat xs := by
  show (List.replicate k false ++ xs).foldl _ 0 = _
  rw [List.foldl_append]
  rw [show (List.replicate k false).foldl (fun n b => 2 * n + (if b then 1 else 0)) 0 = 0
    from replicate_false_foldl k]
  rfl

theorem bitsToNat_pyBin (n : Nat) : bitsToNat (pyBin n) = n := by
  by_cases h : n = 0
  · subst h; rfl
  · rw [pyBin, if_neg h]
    exact bitsToNat_natBits n

theorem bitsToNat_pyFormatB (w n : Nat) : bitsToNat (pyFormatB w n) = n := by
  rw [pyFormatB, bitsToNat_replicate_false_append, bitsToNat_pyBin]

theorem pyBin_length_le (n w : Nat) (h1 : 1 ≤ w) (h2 : n < 2 ^ w) :
    (pyBin n).length ≤ w := by
  by_cases h : n = 0
  · subst h; simpa [pyBin] using h1
  · rw [pyBin, if_neg h]
    exact bitLen_le_of_lt_pow n w h2

theorem pyFormatB_length (w n : Nat) (h : (pyBin n).length ≤ w) :
    (pyFormatB w n).length = w := by
  rw [pyFormatB]
  simp
  omega

theorem bytesToNat_natToBytesBE : ∀ (n v : Nat), v < 256 ^ n →
    bytesToNat (natToBytesBE n v) = v := by
  intro n
  induction n with
  | zero =>
    intro v hv
    simp at hv
    subst hv
    rfl
  | succ m ih =>
    intro v hv
    show bytesToNat (natToBytesBE m (v / 256) ++ [v % 256]) = v
    show (natToBytesBE m (v / 256) ++ [v % 256]).foldl _ 0 = v
    rw [List.foldl_append]
    have hdiv : v / 256 < 256 ^ m := by
      rw [pow_succ] at hv
      omega
    have := ih (v / 256) hdiv
    rw [show (natToBytesBE m (v / 256)).foldl (fun n b => 256 * n + b) 0 = v / 256 from this]
    show 256 * (v / 256) + v % 256 = v
    omega

/-! ## C4: the stored codeword width and the decoder's slicing -/

theorem lzwSliceF_irrel : ∀ (w f1 f2 : Nat) (bs : List Bool),
    bs.length ≤ f1 → bs.length ≤ f2 → lzwSliceF w f1 bs = lzwSliceF w f2 bs := by
  intro w f1
  induction f1 with
  | zero =>
    intro f2 bs h1 _
    have : bs = [] := List.length_eq_zero.mp (by omega)
    subst this
    cases f2 <;> rfl
  | succ g ih =>
    intro f2 bs h1 h2
    cases bs with
    | nil => cases f2 <;> rfl
    | cons b rest =>
      cases f2 with
      | zero => simp at h2
      | succ h =>
        show lzwSliceF w (g + 1) (b :: rest) = lzwSliceF w (h + 1) (b :: rest)
        simp only [lzwSliceF]
        congr 1
        apply ih
        · simp only [List.length_drop, List.length_cons] at *
          omega
        · simp only [List.length_drop, List.length_cons] at *
          omega

theorem lzwSlice_step (wm1 : Nat) (bs : List Bool) (hb : bs ≠ []) :
    lzwSlice wm1 bs =
      bitsToNat (bs.take (wm1 + 1)) :: lzwSlice wm1 (bs.drop (wm1 + 1)) := by
  cases bs with
  | nil => exact absurd rfl hb
  | cons b rest =>
    show lzwSliceF wm1 (b :: rest).length (b :: rest) = _
    rw [List.length_cons]
    simp only [lzwSliceF]
    congr 1
    apply lzwSliceF_irrel
    · simp only [List.length_drop, List.length_cons]
      omega
    · exact le_refl _

theorem lzwSlice_join (w : Nat) (hw : 1 ≤ w) : ∀ (codes : List Nat),
    (∀ c ∈ codes, c < 2 ^ w) →
    lzwSlice (w - 1) ((codes.map (pyFormatB w)).join) = codes := by
  intro codes
  induction codes with
  | nil => intro _; rfl
  | cons c rest ih =>
    intro hbound
    rw [List.map_cons]
    show lzwSlice (w - 1) (pyFormatB w c ++ (rest.map (pyFormatB w)).join) = c :: rest
    have hclen : (pyFormatB w c).length = w :=
      pyFormatB_length w c (pyBin_length_le c w hw (hbound c (by simp)))
    have hne : pyFormatB w c ++ (rest.map (pyFormatB w)).join ≠ [] := by
      intro h0
      have := congrArg List.length h0
      simp [hclen] at this
      omega
    rw [lzwSlice_step (w - 1) _ hne]
    have hw' : w - 1 + 1 = w := by omega
    rw [hw']
    rw [List.take_left' hclen, List.drop_left' hclen]
    rw [bitsToNat_pyFormatB]
    congr 1
    exact ih (fun x hx => hbound x (by simp [hx]))

theorem lzwStep_bound (s : LZWState) (b : Nat)
    (h : ∀ c ∈ s.compressed, c ≤ s.biggest) :
    (∀ c ∈ (lzwStep s b).compressed, c ≤ (lzwStep s b).biggest) ∧
    s.biggest ≤ (lzwStep s b).biggest := by
  rw [lzwStep]
  cases hc : cfind s.dict (s.pattern ++ [b]) with
  | some code => exact ⟨h, le_refl _⟩
  | none =>
    refine ⟨fun c hcmem => ?_, le_max_left _ _⟩
    simp only [List.mem_append, List.mem_singleton] at hcmem
    rcases hcmem with hmem | rfl
    · exact le_trans (h c hmem) (le_max_left _ _)
    · exact le_max_right _ _

theorem foldl_lzwStep_bound : ∀ (bytes : List Nat) (s : LZWState),
    (∀ c ∈ s.compressed, c ≤ s.biggest) →
    ∀ c ∈ (bytes.foldl lzwStep s).compressed, c ≤ (bytes.foldl lzwStep s).biggest := by
  intro bytes
  induction bytes with
  | nil => intro s h; exact h
  | cons b rest ih =>
    intro s h
    rw [List.foldl_cons]
    exact ih (lzwStep s b) (lzwStep_bound s b h).1

theorem lzwCodes_bound (l : List Nat) :
    ∀ c ∈ (lzwCodes l).1, c ≤ (lzwCodes l).2 := by
  intro c hc
  rw [lzwCodes] at hc ⊢
  simp only [List.mem_append, List.mem_singleton] at hc
  rcases hc with hmem | rfl
  · exact le_trans
      (foldl_lzwStep_bound l ⟨lzwInitDictC, [], [], 0⟩ (by simp) c hmem)
      (le_max_left _ _)
  · exact le_max_right _ _

theorem lzwBitString_head (l : List Nat) :
    lzwBitString l = true ::
      (pyFormatB 5 (lzwWidth l) ++ ((lzwCodes l).1.map (pyFormatB (lzwWidth l))).join) := rfl

theorem lzwReadBits_artifact (l : List Nat) :
    lzwReadBits (lzwArtifact l) = lzwBitString l := by
  rw [lzwReadBits]
  have hval : bytesToNat (lzwArtifact l) = bitsToNat (lzwBitString l) := by
    rw [lzwArtifact]
    apply bytesToNat_natToBytesBE
    have h1 : bitsToNat (lzwBitString l) < 2 ^ bitLen (bitsToNat (lzwBitString l)) :=
      lt_two_pow_bitLen _
    have h2 : 2 ^ bitLen (bitsToNat (lzwBitString l)) ≤
        2 ^ (8 * ((bitLen (bitsToNat (lzwBitString l)) + 7) / 8)) :=
      Nat.pow_le_pow_right (by omega) (by omega)
    have h3 : (2 : Nat) ^ (8 * ((bitLen (bitsToNat (lzwBitString l)) + 7) / 8)) =
        256 ^ ((bitLen (bitsToNat (lzwBitString l)) + 7) / 8) := by
      rw [pow_mul]
      norm_num
    omega
  rw [hval, lzwBitString_head]
  have hpos := bitsToNat_true_pos
    (pyFormatB 5 (lzwWidth l) ++ ((lzwCodes l).1.map (pyFormatB (lzwWidth l))).join)
  rw [pyBin, if_neg (by omega), natBits_bitsToNat_true]

theorem lzwReadWidth_artifact (l : List Nat) (hw : lzwWidth l < 32) :
    lzwReadWidth (lzwArtifact l) = lzwWidth l := by
  rw [lzwReadWidth, lzwReadBits_artifact, lzwBitString_head]
  have hlen : (pyFormatB 5 (lzwWidth l)).length = 5 :=
    pyFormatB_length 5 _ (pyBin_length_le _ 5 (by omega) (by norm_num; omega))
  rw [List.drop_one, List.tail_cons, List.take_left' hlen, bitsToNat_pyFormatB]

theorem lzwReadCodes_artifact (l : List Nat) (hw1 : 1 ≤ lzwWidth l)
    (hw : lzwWidth l < 32) :
    lzwSlice (lzwWidth l - 1) ((lzwReadBits (lzwArtifact l)).drop 6) = (lzwCodes l).1 := by
  rw [lzwReadBits_artifact, lzwBitString_head]
  have hlen : (pyFormatB 5 (lzwWidth l)).length = 5 :=
    pyFormatB_length 5 _ (pyBin_length_le _ 5 (by omega) (by norm_num; omega))
  have hdrop : (true :: (pyFormatB 5 (lzwWidth l) ++
      ((lzwCodes l).1.map (pyFormatB (lzwWidth l))).join)).drop 6 =
      ((lzwCodes l).1.map (pyFormatB (lzwWidth l))).join := by
    rw [show (6 : Nat) = 1 + 5 from rfl]
    rw [List.drop_add, List.drop_one, List.tail_cons, List.drop_left' hlen]
  rw [hdrop]
  apply lzwSlice_join (lzwWidth l) hw1
  intro c hc
  calc c ≤ (lzwCodes l).2 := lzwCodes_bound l c hc
    _ < 2 ^ bitLen (lzwCodes l).2 := lt_two_pow_bitLen _
    _ = 2 ^ lzwWidth l := rfl

/-- C4 (counterexample): the claim says the stored width is the bit-length
of the maximum code emitted *with a minimum of 1*.  The code has no such
minimum: on input `[0, 0]` compression succeeds (1 < 2 bytes), the maximum
emitted code is 0, and the width written to (and read back from) the
5-bit width field is `0.bit_length() = 0`, not the claimed minimum 1. -/
theorem c4_zero_width_counterexample :
    lzwCompressFile [0, 0] = .ok [128] ∧
    (lzwCodes [0, 0]).2 = 0 ∧
    lzwWidth [0, 0] = 0 ∧
    lzwReadWidth [128] = 0 ∧
    max 1 (bitLen (lzwCodes [0, 0]).2) = 1 := by
  refine ⟨by decide, by decide, by decide, by decide, by decide⟩

/-- C4 (amended): for every input on which LZW compression succeeds, the
codeword width stored in the artifact equals the bit-length of the maximum
code value emitted, with *no* minimum (it is 0 when the maximum code is 0);
whenever that width is nonzero and representable in the 5-bit field, the
decoder reads back exactly that width and slicing the remaining bits into
codewords of exactly that width recovers the emitted code sequence. -/
theorem c4_width_bitlength_and_slicing (l : List Nat) (a : List Nat)
    (hok : lzwCompressFile l = .ok a) :
    lzwWidth l = bitLen (lzwCodes l).2 ∧
    (1 ≤ lzwWidth l → lzwWidth l < 32 →
      lzwReadWidth a = lzwWidth l ∧
      lzwSlice (lzwWidth l - 1) ((lzwReadBits a).drop 6) = (lzwCodes l).1) := by
  have ha : a = lzwArtifact l := by
    rw [lzwCompressFile] at hok
    split_ifs at hok
    exact (CRes.ok.injEq .. ▸ hok).symm
  subst ha
  exact ⟨rfl, fun hw1 hw => ⟨lzwReadWidth_artifact l hw,
    lzwReadCodes_artifact l hw1 hw⟩⟩

/-- Witness for C4 (amended) at 20 copies of byte 97: compression succeeds,
the maximum code is 259 so the stored width is 9, the decoder reads width
9 back from the artifact, and slicing recovers the emitted codes. -/
theorem c4_width_bitlength_and_slicing_witness :
    lzwWidth (List.replicate 20 97) = bitLen (lzwCodes (List.replicate 20 97)).2 ∧
    lzwReadWidth [10, 76, 48, 8, 12, 10, 7, 3] = 9 ∧
    lzwSlice 8 ((lzwReadBits [10, 76, 48, 8, 12, 10, 7, 3]).drop 6) =
      [97, 256, 257, 258, 259, 259] := by
  have h := c4_width_bitlength_and_slicing (List.replicate 20 97)
    [10, 76, 48, 8, 12, 10, 7, 3] (by decide)
  have h2 := h.2 (by decide) (by decide)
  refine ⟨h.1, ?_, ?_⟩
  · rw [h2.1]
    decide
  · have := h2.2
    rw [show lzwWidth (List.replicate 20 97) - 1 = 8 from by decide] at this
    rw [this]
    decide

/-! ## C10: the derived code table -/

/-- The leaf values of a tree in depth-first (left to right) order. -/
def leafList : HNode → List Nat
  | .leaf _ v => [v]
  | .node _ l r => leafList l ++ leafList r

theorem dfsCodes_keys : ∀ (t : HNode) (pre : List Bool),
    (dfsCodes t pre).map Prod.fst = leafList t
  | .leaf _ _, _ => rfl
  | .node _ l r, pre => by
    show ((dfsCodes l (pre ++ [false]) ++ dfsCodes r (pre ++ [true])).map Prod.fst) = _
    rw [List.map_append, dfsCodes_keys l _, dfsCodes_keys r _]
    rfl

theorem dfsCodes_ext : ∀ (t : HNode) (pre : List Bool) (p : Nat × List Bool),
    p ∈ dfsCodes t pre → ∃ s, p.2 = pre ++ s := by
  intro t
  induction t with
  | leaf f v =>
    intro pre p hp
    simp [dfsCodes] at hp
    exact ⟨[], by rw [hp]; simp⟩
  | node f l r ihl ihr =>
    intro pre p hp
    rw [dfsCodes] at hp
    rcases List.mem_append.mp hp with h | h
    · obtain ⟨s, hs⟩ := ihl _ p h
      exact ⟨[false] ++ s, by rw [hs]; simp⟩
    · obtain ⟨s, hs⟩ := ihr _ p h
      exact ⟨[true] ++ s, by rw [hs]; simp⟩

theorem dfsCodes_node_length : ∀ (f : Nat) (l r : HNode) (pre : List Bool)
    (p : Nat × List Bool), p ∈ dfsCodes (.node f l r) pre →
    pre.length < p.2.length := by
  intro f l r pre p hp
  rw [dfsCodes] at hp
  rcases List.mem_append.mp hp with h | h
  · obtain ⟨s, hs⟩ := dfsCodes_ext l (pre ++ [false]) p h
    rw [hs]
    simp
  · obtain ⟨s, hs⟩ := dfsCodes_ext r (pre ++ [true]) p h
    rw [hs]
    simp

theorem no_cross_prefix (pre s1 s2 : List Bool) (b1 b2 : Bool) (hne : b1 ≠ b2) :
    ¬ ((pre ++ b1 :: s1) <+: (pre ++ b2 :: s2)) := by
  intro hpre
  obtain ⟨t, ht⟩ := hpre
  rw [List.append_assoc] at ht
  have := List.append_cancel_left ht
  simp at this
  exact hne this.1

theorem dfsCodes_no_common_prefix : ∀ (t : HNode) (pre : List Bool)
    (p q : Nat × List Bool), p ∈ dfsCodes t pre → q ∈ dfsCodes t pre →
    p.1 ≠ q.1 → ¬ p.2 <+: q.2 := by
  intro t
  induction t with
  | leaf f v =>
    intro pre p q hp hq hne
    simp [dfsCodes] at hp hq
    exact absurd (by rw [hp, hq]) hne
  | node f l r ihl ihr =>
    intro pre p q hp hq hne
    rw [dfsCodes] at hp hq
    rcases List.mem_append.mp hp with h1 | h1 <;>
      rcases List.mem_append.mp hq with h2 | h2
    · exact ihl _ p q h1 h2 hne
    · obtain ⟨s1, hs1⟩ := dfsCodes_ext l (pre ++ [false]) p h1
      obtain ⟨s2, hs2⟩ := dfsCodes_ext r (pre ++ [true]) q h2
      rw [hs1, hs2, List.append_assoc, List.append_assoc]
      exact no_cross_prefix pre s1 s2 false true (by simp)
    · obtain ⟨s1, hs1⟩ := dfsCodes_ext r (pre ++ [true]) p h1
      obtain ⟨s2, hs2⟩ := dfsCodes_ext l (pre ++ [false]) q h2
      rw [hs1, hs2, List.append_assoc, List.append_assoc]
      exact no_cross_prefix pre s1 s2 true false (by simp)
    · exact ihr _ p q h1 h2 hne

/-! ### The dict built by `__create_huffman_code` is the assignment list -/

theorem assocSet_of_not_mem : ∀ (acc : List (Nat × List Bool)) (k : Nat) (v : List Bool),
    k ∉ acc.map Prod.fst → assocSet acc k v = acc ++ [(k, v)] := by
  intro acc
  induction acc with
  | nil => intro k v _; rfl
  | cons p rest ih =>
    intro k v hk
    obtain ⟨k', v'⟩ := p
    have hk1 : ¬ k' = k := by
      intro he
      exact hk (by simp [he])
    have hk2 : k ∉ rest.map Prod.fst := by
      intro hm
      exact hk (by simp [hm])
    rw [assocSet, if_neg hk1, ih k v hk2]
    rfl

theorem foldl_assocSet_eq : ∀ (entries acc : List (Nat × List Bool)),
    ((acc ++ entries).map Prod.fst).Nodup →
    entries.foldl (fun a p => assocSet a p.1 p.2) acc = acc ++ entries := by
  intro entries
  induction entries with
  | nil => intro acc _; simp
  | cons p rest ih =>
    intro acc hnd
    rw [List.foldl_cons]
    have hnotmem : p.1 ∉ acc.map Prod.fst := by
      intro hmem
      rw [List.map_append, List.nodup_append] at hnd
      exact hnd.2.2 hmem (by simp)
    rw [assocSet_of_not_mem acc p.1 p.2 hnotmem]
    have : ((acc ++ [(p.1, p.2)]) ++ rest).map Prod.fst =
        (acc ++ p :: rest).map Prod.fst := by simp
    rw [ih (acc ++ [(p.1, p.2)]) (by rw [this]; exact hnd)]
    simp

theorem huffTable_eq_dfsCodes (t : HNode) (hnd : (leafList t).Nodup) :
    huffTable t = dfsCodes t [] := by
  rw [huffTable]
  have h := foldl_assocSet_eq (dfsCodes t []) [] (by
    rw [List.nil_append, dfsCodes_keys]
    exact hnd)
  rw [h]
  rfl

/-! ### The leaf values of the built tree are the distinct input bytes -/

def msLeafSum (m : Multiset HNode) : Multiset Nat :=
  (m.map (fun t => ((leafList t : List Nat) : Multiset Nat))).sum

theorem msLeafSum_cons (x : HNode) (m : Multiset HNode) :
    msLeafSum (x ::ₘ m) = ((leafList x : List Nat) : Multiset Nat) + msLeafSum m := by
  rw [msLeafSum, Multiset.map_cons, Multiset.sum_cons]
  rfl

theorem foldl_heappush_ms : ∀ (ls : List HNode) (acc : List HNode),
    ((ls.foldl heappush acc : List HNode) : Multiset HNode) =
      (acc : Multiset HNode) + (ls : Multiset HNode) := by
  intro ls
  induction ls with
  | nil => intro acc; simp
  | cons x rest ih =>
    intro acc
    rw [List.foldl_cons, ih (heappush acc x), heappush_ms]
    rw [← Multiset.cons_coe]
    simp only [← Multiset.singleton_add]
    abel

theorem buildTreeLoopF_leafList : ∀ (fuel : Nat) (heap : List HNode) (t : HNode),
    heap.length ≤ fuel → buildTreeLoopF fuel heap = some t →
    ((leafList t : List Nat) : Multiset Nat) = msLeafSum (heap : Multiset HNode) := by
  intro fuel
  induction fuel with
  | zero => intro heap t _ ht; simp [buildTreeLoopF] at ht
  | succ g ih =>
    intro heap t hlen ht
    cases hpop : heappop heap with
    | none => rw [buildTreeLoopF, hpop] at ht; simp at ht
    | some p1 =>
      obtain ⟨x, h1⟩ := p1
      cases hpop2 : heappop h1 with
      | none =>
        simp only [buildTreeLoopF, hpop, hpop2] at ht
        have hx : x = t := by simpa using ht
        subst hx
        have hh1 : h1 = [] := (heappop_none_iff h1).mp hpop2
        subst hh1
        rw [heappop_ms heap x [] hpop, msLeafSum_cons]
        simp [msLeafSum]
      | some p2 =>
        obtain ⟨n2, h2⟩ := p2
        simp only [buildTreeLoopF, hpop, hpop2] at ht
        have l1 := heappop_length heap x h1 hpop
        have l2 := heappop_length h1 n2 h2 hpop2
        have hlen' : (heappush h2 (createNode x n2)).length ≤ g := by
          rw [heappush_length]; omega
        have := ih _ t hlen' ht
        rw [heappush_ms, msLeafSum_cons] at this
        rw [heappop_ms heap x h1 hpop, msLeafSum_cons,
          heappop_ms h1 n2 h2 hpop2, msLeafSum_cons]
        rw [this]
        have hcreate : ((leafList (createNode x n2) : List Nat) : Multiset Nat) =
            ((leafList x : List Nat) : Multiset Nat) +
            ((leafList n2 : List Nat) : Multiset Nat) := by
          show ((leafList x ++ leafList n2 : List Nat) : Multiset Nat) = _
          rw [← Multiset.coe_add]
        rw [hcreate]
        abel

theorem singleton_msLeafSum : ∀ (ps : List (Nat × Nat)),
    msLeafSum ((ps.map (fun p => HNode.leaf p.2 p.1) : List HNode) : Multiset HNode) =
      ((ps.map Prod.fst : List Nat) : Multiset Nat) := by
  intro ps
  induction ps with
  | nil => rfl
  | cons p rest ih =>
    have hc : ((List.map (fun p => HNode.leaf p.2 p.1) (p :: rest) : List HNode) :
        Multiset HNode) =
        HNode.leaf p.2 p.1 ::ₘ ((List.map (fun p => HNode.leaf p.2 p.1) rest : List HNode) :
          Multiset HNode) := by
      rw [List.map_cons, ← Multiset.cons_coe]
    rw [hc, msLeafSum_cons, ih]
    rw [List.map_cons, ← Multiset.cons_coe, ← Multiset.singleton_add]
    rfl

theorem buildTree_leafList (l : List Nat) (t : HNode)
    (ht : buildTree (leavesOfInput l) = some t) :
    ((leafList t : List Nat) : Multiset Nat) =
      (((countOccurrences l).map Prod.fst : List Nat) : Multiset Nat) := by
  rw [buildTree, buildTreeLoop] at ht
  have := buildTreeLoopF_leafList _ _ t (le_refl _) ht
  rw [this, foldl_heappush_ms]
  show msLeafSum (((leavesOfInput l : List HNode) : Multiset HNode)) = _
  rw [leavesOfInput]
  exact singleton_msLeafSum (countOccurrences l)

/-! ### Distinctness of the occurrence-dict keys -/

theorem bumpKey_mem_keys : ∀ (acc : List (Nat × Nat)) (b x : Nat),
    x ∈ (bumpKey acc b).map Prod.fst → x ∈ acc.map Prod.fst ∨ x = b := by
  intro acc
  induction acc with
  | nil =>
    intro b x hx
    simp [bumpKey] at hx
    exact Or.inr hx
  | cons p rest ih =>
    intro b x hx
    obtain ⟨k, v⟩ := p
    by_cases hk : k = b
    · rw [bumpKey, if_pos hk] at hx
      simpa using Or.inl (by simpa using hx)
    · rw [bumpKey, if_neg hk] at hx
      simp at hx
      rcases hx with hx | hx
      · exact Or.inl (by simp [hx])
      · rcases ih b x (by simpa using hx) with h | h
        · exact Or.inl (by simp; exact Or.inr (by simpa using h))
        · exact Or.inr h

theorem bumpKey_keys_nodup : ∀ (acc : List (Nat × Nat)) (b : Nat),
    (acc.map Prod.fst).Nodup → ((bumpKey acc b).map Prod.fst).Nodup := by
  intro acc
  induction acc with
  | nil => intro b _; simp [bumpKey]
  | cons p rest ih =>
    intro b hnd
    obtain ⟨k, v⟩ := p
    rw [List.map_cons, List.nodup_cons] at hnd
    by_cases hk : k = b
    · rw [bumpKey, if_pos hk]
      rw [List.map_cons, List.nodup_cons]
      exact hnd
    · rw [bumpKey, if_neg hk]
      rw [List.map_cons, List.nodup_cons]
      refine ⟨fun hmem => ?_, ih b hnd.2⟩
      rcases bumpKey_mem_keys rest b k hmem with h | h
      · exact hnd.1 h
      · exact hk h

theorem countOccurrences_keys_nodup (l : List Nat) :
    ((countOccurrences l).map Prod.fst).Nodup := by
  suffices h : ∀ (xs : List Nat) (acc : List (Nat × Nat)),
      (acc.map Prod.fst).Nodup → ((xs.foldl bumpKey acc).map Prod.fst).Nodup by
    exact h l [] (by simp)
  intro xs
  induction xs with
  | nil => intro acc h; exact h
  | cons x rest ih =>
    intro acc h
    rw [List.foldl_cons]
    exact ih (bumpKey acc x) (bumpKey_keys_nodup acc x h)

/-! ### With at least two distinct bytes the root is an internal node -/

theorem buildTreeLoopF_singleton (g : Nat) (x : HNode) (hg : 1 ≤ g) :
    buildTreeLoopF g [x] = some x := by
  cases g with
  | zero => omega
  | succ u =>
    have hpop : heappop [x] = some (x, []) := rfl
    simp only [buildTreeLoopF, hpop]
    rfl

theorem buildTreeLoopF_merged : ∀ (fuel : Nat) (heap : List HNode),
    2 ≤ heap.length → heap.length ≤ fuel →
    ∃ a b, buildTreeLoopF fuel heap = some (createNode a b) := by
  intro fuel
  induction fuel with
  | zero => intro heap h2 hle; omega
  | succ g ih =>
    intro heap h2 hle
    have hne : heap ≠ [] := by
      intro h0
      rw [h0] at h2
      simp at h2
    obtain ⟨x, h1, hpop⟩ := heappop_some_of_ne_nil heap hne
    have l1 := heappop_length heap x h1 hpop
    have hne1 : h1 ≠ [] := by
      intro h0
      rw [h0] at l1
      simp at l1
      omega
    obtain ⟨n2, h2', hpop2⟩ := heappop_some_of_ne_nil h1 hne1
    have l2 := heappop_length h1 n2 h2' hpop2
    by_cases hbig : 2 ≤ (heappush h2' (createNode x n2)).length
    · obtain ⟨a, b, hab⟩ := ih (heappush h2' (createNode x n2)) hbig
        (by rw [heappush_length]; omega)
      refine ⟨a, b, ?_⟩
      simp only [buildTreeLoopF, hpop, hpop2]
      exact hab
    · have hsz : (heappush h2' (createNode x n2)).length = 1 := by
        rw [heappush_length] at hbig ⊢
        omega
      have hzero : h2' = [] := by
        rw [heappush_length] at hsz
        exact List.length_eq_zero.mp (by omega)
      subst hzero
      refine ⟨x, n2, ?_⟩
      simp only [buildTreeLoopF, hpop, hpop2]
      have hpush : heappush [] (createNode x n2) = [createNode x n2] := rfl
      rw [hpush]
      exact buildTreeLoopF_singleton g (createNode x n2) (by omega)

/-- C10: for every input with at least two distinct byte values, the code
table derived from the built tree has exactly one entry per distinct byte
of the input (its keys are a permutation of the distinct bytes, which are
pairwise different), every code is a non-empty bit string, and the code
set is prefix-free: codes of distinct bytes are never prefixes of one
another. -/
theorem c10_code_table (l : List Nat) (t : HNode)
    (hdis : 2 ≤ (countOccurrences l).length)
    (ht : buildTree (leavesOfInput l) = some t) :
    ((huffTable t).map Prod.fst).Perm ((countOccurrences l).map Prod.fst) ∧
    ((countOccurrences l).map Prod.fst).Nodup ∧
    (∀ p ∈ huffTable t, p.2 ≠ []) ∧
    (∀ p ∈ huffTable t, ∀ q ∈ huffTable t, p.1 ≠ q.1 → ¬ p.2 <+: q.2) := by
  have hms := buildTree_leafList l t ht
  have hperm : (leafList t).Perm ((countOccurrences l).map Prod.fst) :=
    Multiset.coe_eq_coe.mp hms
  have hnodk := countOccurrences_keys_nodup l
  have hnodl : (leafList t).Nodup := hperm.nodup_iff.mpr hnodk
  have htab : huffTable t = dfsCodes t [] := huffTable_eq_dfsCodes t hnodl
  have hint : ∃ a b, t = createNode a b := by
    rw [buildTree, buildTreeLoop] at ht
    have hlen : 2 ≤ ((leavesOfInput l).foldl heappush []).length := by
      rw [foldl_heappush_length]
      simpa [leavesOfInput] using hdis
    obtain ⟨a, b, hab⟩ := buildTreeLoopF_merged _ _ hlen (le_refl _)
    exact ⟨a, b, by
      have := ht.symm.trans hab
      exact Option.some_inj.mp this⟩
  obtain ⟨a, b, hab⟩ := hint
  refine ⟨?_, hnodk, ?_, ?_⟩
  · rw [htab, dfsCodes_keys]
    exact hperm
  · intro p hp
    rw [htab] at hp
    have hlen0 : ([] : List Bool).length < p.2.length := by
      apply dfsCodes_node_length (a.frequency + b.frequency) a b [] p
      rw [hab] at hp
      exact hp
    intro h0
    rw [h0] at hlen0
    simp at hlen0
  · intro p hp q hq hne
    rw [htab] at hp hq
    exact dfsCodes_no_common_prefix t [] p q hp hq hne

/-- Witness for C10 at the two-byte input `[0, 1]`: the built tree is the
two-leaf merge, the table is `{0 ↦ "0", 1 ↦ "1"}`. -/
theorem c10_code_table_witness :
    ((huffTable (.node 2 (.leaf 1 0) (.leaf 1 1))).map Prod.fst).Perm
      ((countOccurrences [0, 1]).map Prod.fst) ∧
    ((countOccurrences [0, 1]).map Prod.fst).Nodup ∧
    (∀ p ∈ huffTable (.node 2 (.leaf 1 0) (.leaf 1 1)), p.2 ≠ []) ∧
    (∀ p ∈ huffTable (.node 2 (.leaf 1 0) (.leaf 1 1)),
      ∀ q ∈ huffTable (.node 2 (.leaf 1 0) (.leaf 1 1)),
        p.1 ≠ q.1 → ¬ p.2 <+: q.2) :=
  c10_code_table [0, 1] (.node 2 (.leaf 1 0) (.leaf 1 1)) (by decide) (by decide)

/-! ## C7: the heap-driven traversal visits in depth-first preorder

The Python `preorder_traversal` stores pending nodes in a `heapq` heap, so
this is a theorem, not a definitional fact: it holds because in a Huffman
tree every node's frequency strictly dominates its children's, so the heap
always pops the current subtree before anything else, left child first.
The proof verifies the binary-heap invariant for the embedded `heapq`. -/

/-- The binary-heap invariant of CPython's `heapq`: every non-root entry
is not smaller than its parent. -/
def heapInv (l : List HNode) : Prop :=
  ∀ i, 1 ≤ i → i < l.length →
    (l.getD ((i - 1) / 2) default).frequency ≤ (l.getD i default).frequency

theorem heapInv_nil : heapInv [] := by
  intro i _ hi
  simp at hi

theorem heapInv_singleton (x : HNode) : heapInv [x] := by
  intro i h1 hi
  simp at hi
  omega

theorem hGetD_mem (l : List HNode) (j : Nat) (d : HNode) (h : j < l.length) :
    l.getD j d ∈ l := by
  rw [List.getD_eq_getElem l d h]
  exact List.getElem_mem h

theorem heapInv_root_min (l : List HNode) (hinv : heapInv l) :
    ∀ i, i < l.length →
      (l.getD 0 default).frequency ≤ (l.getD i default).frequency := by
  intro i
  induction i using Nat.strong_induction_on with
  | _ i ih =>
    intro hi
    cases i with
    | zero => exact le_refl _
    | succ m =>
      have hpar : (m + 1 - 1) / 2 < m + 1 := by
        have := Nat.div_le_self m 2
        omega
      exact le_trans (ih _ hpar (by omega)) (hinv (m + 1) (by omega) hi)

theorem heapInv_root_min_mem (l : List HNode) (hinv : heapInv l) (y : HNode)
    (hy : y ∈ l) : (l.getD 0 default).frequency ≤ y.frequency := by
  obtain ⟨i, hi, hg⟩ := List.getElem_of_mem hy
  have := heapInv_root_min l hinv i hi
  rw [List.getD_eq_getElem l default hi] at this
  rw [← hg]
  exact this

/-- The child indices of position `p` are exactly `2p+1` and `2p+2`. -/
theorem child_index (j p : Nat) (hj : 1 ≤ j) :
    (j - 1) / 2 = p ↔ j = 2 * p + 1 ∨ j = 2 * p + 2 := by
  omega

/-- Writing `item` at `pos` restores the heap invariant, provided all
edges away from `pos` hold, `item` is below `pos`'s children, and (when
`pos` is not the root) `pos`'s parent is below `item`. -/
theorem set_inv (heap : List HNode) (pos : Nat) (item : HNode) (hp : pos < heap.length)
    (ha : ∀ j, 1 ≤ j → j < heap.length → j ≠ pos →
      (heap.getD ((j - 1) / 2) default).frequency ≤ (heap.getD j default).frequency)
    (hb : ∀ j, 1 ≤ j → j < heap.length → (j - 1) / 2 = pos →
      item.frequency ≤ (heap.getD j default).frequency)
    (hparent : 1 ≤ pos → (heap.getD ((pos - 1) / 2) default).frequency ≤ item.frequency) :
    heapInv (heap.set pos item) := by
  intro i h1 hi
  rw [List.length_set] at hi
  by_cases hip : i = pos
  · subst hip
    have hppi : (i - 1) / 2 ≠ i := by omega
    rw [hGetD_set_ne heap i ((i - 1) / 2) item default (fun h => hppi h.symm)]
    rw [hGetD_set_self heap i item default hp]
    exact hparent h1
  · rw [hGetD_set_ne heap pos i item default (fun h => hip h.symm)]
    by_cases hpp : (i - 1) / 2 = pos
    · rw [hpp, hGetD_set_self heap pos item default hp]
      exact hb i h1 hi hpp
    · rw [hGetD_set_ne heap pos ((i - 1) / 2) item default (fun h => hpp h.symm)]
      exact ha i h1 hi hip

/-- CPython `_siftdown` from a hole at `pos` restores the heap invariant,
given: all edges not into the hole hold, `item` is below the hole's
children, and the hole's children are not above the hole's parent. -/
theorem siftdown_insert_inv : ∀ (fuel : Nat) (heap : List HNode) (pos : Nat) (item : HNode),
    pos ≤ fuel → pos < heap.length →
    (∀ j, 1 ≤ j → j < heap.length → j ≠ pos →
      (heap.getD ((j - 1) / 2) default).frequency ≤ (heap.getD j default).frequency) →
    (∀ j, 1 ≤ j → j < heap.length → (j - 1) / 2 = pos →
      item.frequency ≤ (heap.getD j default).frequency) →
    (∀ j, 1 ≤ j → j < heap.length → (j - 1) / 2 = pos → 1 ≤ pos →
      (heap.getD ((pos - 1) / 2) default).frequency ≤ (heap.getD j default).frequency) →
    heapInv (siftdownLoop fuel heap 0 pos item) := by
  intro fuel
  induction fuel with
  | zero =>
    intro heap pos item hf hp ha hb1 hb2
    have hpos : pos = 0 := by omega
    subst hpos
    show heapInv (heap.set 0 item)
    exact set_inv heap 0 item hp ha hb1 (by omega)
  | succ f ih =>
    intro heap pos item hf hp ha hb1 hb2
    by_cases hpos : 0 < pos
    · rw [siftdownLoop, if_pos hpos]
      by_cases hl : hlt item (heap.getD ((pos - 1) / 2) default)
      · rw [if_pos hl]
        have hltv : item.frequency < (heap.getD ((pos - 1) / 2) default).frequency := by
          simpa [hlt] using hl
        have hppp : (pos - 1) / 2 < pos := by
          have := Nat.div_le_self (pos - 1) 2
          omega
        apply ih
        · omega
        · rw [List.length_set]; omega
        · -- (a') edges away from the new hole (pos-1)/2 in heap.set pos parent
          intro j h1 hj hjp
          rw [List.length_set] at hj
          by_cases hjpos : j = pos
          · subst hjpos
            rw [hGetD_set_self heap j _ default hp]
            have : (j - 1) / 2 ≠ j := by omega
            rw [hGetD_set_ne heap j ((j - 1) / 2) _ default (fun h => this h.symm)]
          · rw [hGetD_set_ne heap pos j _ default (fun h => hjpos h.symm)]
            by_cases hparj : (j - 1) / 2 = pos
            · rw [hparj, hGetD_set_self heap pos _ default hp]
              exact hb2 j h1 hj hparj hpos
            · rw [hGetD_set_ne heap pos ((j - 1) / 2) _ default (fun h => hparj h.symm)]
              exact ha j h1 hj hjpos
        · -- (b1') item is below the children of the new hole
          intro j h1 hj hparj
          rw [List.length_set] at hj
          by_cases hjpos : j = pos
          · subst hjpos
            rw [hGetD_set_self heap j _ default hp]
            omega
          · rw [hGetD_set_ne heap pos j _ default (fun h => hjpos h.symm)]
            have hedge := ha j h1 hj hjpos
            rw [hparj] at hedge
            omega
        · -- (b2') children of the new hole are not above its parent
          intro j h1 hj hparj hpp1
          rw [List.length_set] at hj
          have hgp : ((pos - 1) / 2 - 1) / 2 ≠ pos := by
            have := Nat.div_le_self ((pos - 1) / 2 - 1) 2
            omega
          rw [hGetD_set_ne heap pos _ _ default (fun h => hgp h.symm)]
          have hedgepp := ha ((pos - 1) / 2) hpp1 (by omega) (by omega)
          by_cases hjpos : j = pos
          · subst hjpos
            rw [hGetD_set_self heap j _ default hp]
            exact hedgepp
          · rw [hGetD_set_ne heap pos j _ default (fun h => hjpos h.symm)]
            have hedgej := ha j h1 hj hjpos
            rw [hparj] at hedgej
            omega
      · rw [if_neg hl]
        have hlev : (heap.getD ((pos - 1) / 2) default).frequency ≤ item.frequency := by
          simpa [hlt] using hl
        exact set_inv heap pos item hp ha hb1 (fun _ => hlev)
    · rw [siftdownLoop, if_neg hpos]
      have hpos0 : pos = 0 := by omega
      subst hpos0
      exact set_inv heap 0 item hp ha hb1 (by omega)

theorem heappush_inv (l : List HNode) (x : HNode) (hinv : heapInv l) :
    heapInv (heappush l x) := by
  show heapInv (siftdownLoop l.length (l ++ [x]) 0 l.length x)
  apply siftdown_insert_inv
  · exact le_refl _
  · simp
  · intro j h1 hj hjp
    rw [List.length_append, List.length_singleton] at hj
    have hjl : j < l.length := by omega
    rw [hGetD_append_left l [x] j default hjl]
    rw [hGetD_append_left l [x] ((j - 1) / 2) default (by omega)]
    exact hinv j h1 hjl
  · intro j h1 hj hpar
    rw [List.length_append, List.length_singleton] at hj
    omega
  · intro j h1 hj hpar _
    rw [List.length_append, List.length_singleton] at hj
    omega

theorem chooseChild_cases (heap : List HNode) (pos endpos : Nat) :
    chooseChild heap pos endpos = 2 * pos + 1 ∨
      chooseChild heap pos endpos = 2 * pos + 2 := by
  unfold chooseChild
  split
  · exact Or.inr rfl
  · exact Or.inl rfl

theorem chooseChild_parent (heap : List HNode) (pos endpos : Nat) :
    (chooseChild heap pos endpos - 1) / 2 = pos := by
  rcases chooseChild_cases heap pos endpos with h | h <;> rw [h] <;> omega

theorem chooseChild_min (heap : List HNode) (pos endpos : Nat)
    (h : 2 * pos + 1 < endpos) :
    ∀ j, 1 ≤ j → j < endpos → (j - 1) / 2 = pos →
      (heap.getD (chooseChild heap pos endpos) default).frequency ≤
        (heap.getD j default).frequency := by
  intro j h1 hj hpar
  have hj2 : j = 2 * pos + 1 ∨ j = 2 * pos + 2 := (child_index j pos h1).mp hpar
  by_cases hc : 2 * pos + 2 < endpos ∧
      ¬ hlt (heap.getD (2 * pos + 1) default) (heap.getD (2 * pos + 2) default)
  · rw [chooseChild, if_pos hc]
    have hle : (heap.getD (2 * pos + 2) default).frequency ≤
        (heap.getD (2 * pos + 1) default).frequency := by
      have := hc.2
      simp only [hlt, decide_eq_true_eq] at this
      omega
    rcases hj2 with rfl | rfl
    · exact hle
    · exact le_refl _
  · rw [chooseChild, if_neg hc]
    rcases hj2 with rfl | rfl
    · exact le_refl _
    · push_neg at hc
      have := hc (by omega)
      simp only [hlt, decide_eq_true_eq] at this
      omega

theorem siftupLoop_inv : ∀ (fuel : Nat) (heap : List HNode) (pos endpos : Nat),
    endpos = heap.length → pos < endpos → endpos - pos ≤ fuel →
    (∀ j, 1 ≤ j → j < endpos → j ≠ pos → (j - 1) / 2 ≠ pos →
      (heap.getD ((j - 1) / 2) default).frequency ≤ (heap.getD j default).frequency) →
    (∀ j, 1 ≤ j → j < endpos → (j - 1) / 2 = pos → 1 ≤ pos →
      (heap.getD ((pos - 1) / 2) default).frequency ≤ (heap.getD j default).frequency) →
    endpos ≤ 2 * (siftupLoop fuel heap pos endpos).2 + 1 ∧
    (siftupLoop fuel heap pos endpos).2 < endpos ∧
    (∀ j, 1 ≤ j → j < endpos → j ≠ (siftupLoop fuel heap pos endpos).2 →
      (j - 1) / 2 ≠ (siftupLoop fuel heap pos endpos).2 →
      ((siftupLoop fuel heap pos endpos).1.getD ((j - 1) / 2) default).frequency ≤
        ((siftupLoop fuel heap pos endpos).1.getD j default).frequency) := by
  intro fuel
  induction fuel with
  | zero =>
    intro heap pos endpos he hp hf _ _
    omega
  | succ f ih =>
    intro heap pos endpos he hp hf ha hb
    by_cases h : 2 * pos + 1 < endpos
    · rw [siftupLoop, if_pos h]
      have hc : chooseChild heap pos endpos < endpos := chooseChild_lt heap pos endpos h
      have hcg : pos < chooseChild heap pos endpos := chooseChild_gt heap pos endpos
      have hcpar : (chooseChild heap pos endpos - 1) / 2 = pos :=
        chooseChild_parent heap pos endpos
      apply ih
      · simpa using he
      · exact hc
      · omega
      · -- edges away from the new hole
        intro j h1 hj hjc hjparc
        by_cases hjpos : j = pos
        · subst hjpos
          have h1p : 1 ≤ j := h1
          rw [hGetD_set_self heap j _ default (by omega)]
          have hne : (j - 1) / 2 ≠ j := by omega
          rw [hGetD_set_ne heap j ((j - 1) / 2) _ default (fun hx => hne hx.symm)]
          exact hb (chooseChild heap j endpos) (by omega) hc hcpar h1p
        · rw [hGetD_set_ne heap pos j _ default (fun hx => hjpos hx.symm)]
          by_cases hparj : (j - 1) / 2 = pos
          · rw [hparj, hGetD_set_self heap pos _ default (by omega)]
            exact chooseChild_min heap pos endpos h j h1 hj hparj
          · rw [hGetD_set_ne heap pos ((j - 1) / 2) _ default (fun hx => hparj hx.symm)]
            exact ha j h1 hj hjpos hparj
      · -- children of the new hole vs its parent (= the old hole)
        intro j h1 hj hparj _
        rw [hcpar]
        rw [hGetD_set_self heap pos _ default (by omega)]
        have hjc : j ≠ chooseChild heap pos endpos := by omega
        have hjpos : j ≠ pos := by omega
        rw [hGetD_set_ne heap pos j _ default (fun hx => hjpos hx.symm)]
        have := ha j h1 hj hjpos (by rw [hparj]; omega)
        rw [hparj] at this
        exact this
    · rw [siftupLoop, if_neg h]
      exact ⟨by omega, hp, fun j h1 hj hjp hjpar => ha j h1 hj hjp hjpar⟩

theorem siftup_zero_inv (heap : List HNode) (hne : heap ≠ [])
    (hpre : ∀ j, 1 ≤ j → j < heap.length → (j - 1) / 2 ≠ 0 →
      (heap.getD ((j - 1) / 2) default).frequency ≤ (heap.getD j default).frequency) :
    heapInv (siftup heap 0) := by
  have hlen : 0 < heap.length := List.length_pos.mpr hne
  obtain ⟨hend, hfp, hedges⟩ := siftupLoop_inv heap.length heap 0 heap.length rfl hlen
    (by omega)
    (fun j h1 hj hjp hjpar => hpre j h1 hj hjpar)
    (fun j _ _ _ h0 => by omega)
  obtain ⟨flen, _, _⟩ := siftupLoop_facts heap.length heap 0 heap.length rfl hlen
  show heapInv (siftdownLoop (siftupLoop heap.length heap 0 heap.length).2
    (siftupLoop heap.length heap 0 heap.length).1 0
    (siftupLoop heap.length heap 0 heap.length).2 (heap.getD 0 default))
  apply siftdown_insert_inv
  · exact le_refl _
  · rw [flen]; exact hfp
  · intro j h1 hj hjfp
    rw [flen] at hj
    by_cases hjpar : (j - 1) / 2 = (siftupLoop heap.length heap 0 heap.length).2
    · omega
    · exact hedges j h1 hj hjfp hjpar
  · intro j h1 hj hjpar
    rw [flen] at hj
    omega
  · intro j h1 hj hjpar _
    rw [flen] at hj
    omega

theorem hGetD_dropLast : ∀ (l : List HNode) (j : Nat) (d : HNode),
    j < l.length - 1 → l.dropLast.getD j d = l.getD j d
  | [], _, _, h => by simp at h
  | [_], _, _, h => by simp at h
  | _ :: _ :: _, 0, _, _ => rfl
  | x :: y :: t, j + 1, d, h =>
    hGetD_dropLast (y :: t) j d (by simp only [List.length_cons] at h ⊢; omega)

theorem heappop_inv (heap : List HNode) (x : HNode) (h' : List HNode)
    (hinv : heapInv heap) (hpop : heappop heap = some (x, h')) :
    heapInv h' := by
  by_cases hne : heap = []
  · rw [heappop, dif_pos hne] at hpop
    simp at hpop
  · rw [heappop, dif_neg hne] at hpop
    by_cases hre : heap.dropLast = []
    · rw [if_pos hre] at hpop
      obtain ⟨_, hh⟩ := Prod.mk.injEq .. ▸ Option.some_inj.mp hpop
      rw [← hh]
      exact heapInv_nil
    · rw [if_neg hre] at hpop
      obtain ⟨_, hh⟩ := Prod.mk.injEq .. ▸ Option.some_inj.mp hpop
      rw [← hh]
      apply siftup_zero_inv
      · intro h0
        have := congrArg List.length h0
        rw [List.length_set] at this
        exact hre (List.length_eq_zero.mp this)
      · intro j h1 hj hjpar
        rw [List.length_set] at hj
        have hrl : heap.dropLast.length = heap.length - 1 := List.length_dropLast heap
        rw [hGetD_set_ne heap.dropLast 0 j _ default (by omega)]
        rw [hGetD_set_ne heap.dropLast 0 ((j - 1) / 2) _ default (by omega)]
        rw [hGetD_dropLast heap j default (by omega)]
        rw [hGetD_dropLast heap ((j - 1) / 2) default (by omega)]
        exact hinv j h1 (by omega)

theorem heappop_min (heap : List HNode) (x : HNode) (h' : List HNode)
    (hinv : heapInv heap) (hpop : heappop heap = some (x, h')) :
    ∀ y ∈ h', x.frequency ≤ y.frequency := by
  intro y hy
  have hms := heappop_ms heap x h' hpop
  have hym : y ∈ heap := by
    have h1 : y ∈ (h' : Multiset HNode) := by exact_mod_cast hy
    have h2 : y ∈ (heap : Multiset HNode) := by
      rw [hms]; exact Multiset.mem_cons_of_mem h1
    exact_mod_cast h2
  rw [heappop_fst heap x h' hpop]
  exact heapInv_root_min_mem heap hinv y hym

theorem siftdownLoop_root_smallest : ∀ (fuel : Nat) (heap : List HNode) (pos : Nat)
    (item : HNode), pos < heap.length → pos ≤ fuel →
    (∀ j, j < heap.length → j ≠ pos →
      item.frequency < (heap.getD j default).frequency) →
    (siftdownLoop fuel heap 0 pos item).getD 0 default = item := by
  intro fuel
  induction fuel with
  | zero =>
    intro heap pos item hp hf _
    have h0 : pos = 0 := by omega
    subst h0
    rw [siftdownLoop]
    exact hGetD_set_self heap 0 item default hp
  | succ f ih =>
    intro heap pos item hp hf hj
    by_cases h0 : 0 < pos
    · rw [siftdownLoop, if_pos h0]
      have hpar : (pos - 1) / 2 < pos := by omega
      have hcond : hlt item (heap.getD ((pos - 1) / 2) default) = true := by
        simp only [hlt, decide_eq_true_eq]
        exact hj _ (by omega) (by omega)
      rw [if_pos hcond]
      apply ih
      · rw [List.length_set]; omega
      · omega
      · intro j hjl hjp
        rw [List.length_set] at hjl
        by_cases hjpos : j = pos
        · subst hjpos
          rw [hGetD_set_self heap j _ default hp]
          exact hj _ (by omega) (by omega)
        · rw [hGetD_set_ne heap pos j _ default (fun hx => hjpos hx.symm)]
          exact hj j hjl hjpos
    · have hpz : pos = 0 := by omega
      subst hpz
      rw [siftdownLoop, if_neg h0]
      exact hGetD_set_self heap 0 item default hp

theorem siftdownLoop_root_keep : ∀ (fuel : Nat) (heap : List HNode) (pos : Nat)
    (item : HNode), 1 ≤ pos →
    ¬ (item.frequency < (heap.getD 0 default).frequency) →
    (siftdownLoop fuel heap 0 pos item).getD 0 default = heap.getD 0 default := by
  intro fuel
  induction fuel with
  | zero =>
    intro heap pos item hp _
    rw [siftdownLoop]
    exact hGetD_set_ne heap pos 0 item default (by omega)
  | succ f ih =>
    intro heap pos item hp hroot
    rw [siftdownLoop, if_pos (by omega : 0 < pos)]
    by_cases hcond : hlt item (heap.getD ((pos - 1) / 2) default) = true
    · rw [if_pos hcond]
      by_cases hpar0 : (pos - 1) / 2 = 0
      · exfalso
        apply hroot
        simp only [hlt, decide_eq_true_eq] at hcond
        rw [hpar0] at hcond
        exact hcond
      · have hk := ih (heap.set pos (heap.getD ((pos - 1) / 2) default)) ((pos - 1) / 2)
          item (by omega)
          (by rw [hGetD_set_ne heap pos 0 _ default (by omega)]; exact hroot)
        rw [hk, hGetD_set_ne heap pos 0 _ default (by omega)]
    · rw [if_neg hcond]
      exact hGetD_set_ne heap pos 0 item default (by omega)

theorem push_root_smallest (heap : List HNode) (x : HNode)
    (hx : ∀ y ∈ heap, x.frequency < y.frequency) :
    (heappush heap x).getD 0 default = x := by
  show (siftdownLoop heap.length (heap ++ [x]) 0 heap.length x).getD 0 default = x
  apply siftdownLoop_root_smallest
  · rw [List.length_append, List.length_singleton]; omega
  · exact le_refl _
  · intro j hjl hjp
    rw [List.length_append, List.length_singleton] at hjl
    have hj : j < heap.length := by omega
    rw [hGetD_append_left heap [x] j default hj]
    exact hx _ (hGetD_mem heap j default hj)

theorem push_root_keep (heap : List HNode) (x : HNode) (hne : heap ≠ [])
    (hroot : ¬ (x.frequency < (heap.getD 0 default).frequency)) :
    (heappush heap x).getD 0 default = heap.getD 0 default := by
  have hlen : 0 < heap.length := List.length_pos.mpr hne
  show (siftdownLoop heap.length (heap ++ [x]) 0 heap.length x).getD 0 default = _
  rw [siftdownLoop_root_keep heap.length (heap ++ [x]) heap.length x (by omega)
    (by rw [hGetD_append_left heap [x] 0 default hlen]; exact hroot)]
  exact hGetD_append_left heap [x] 0 default hlen

/-! ### Well-formedness of the trees built by `build_tree` -/

/-- The invariant of the nodes handled by `build_tree`: leaf frequencies
are positive (they are occurrence counts), an internal node's frequency is
the sum of its children's, and the left child (popped first) never exceeds
the right child. -/
def HWF : HNode → Prop
  | .leaf f _ => 1 ≤ f
  | .node f l r =>
      f = l.frequency + r.frequency ∧ l.frequency ≤ r.frequency ∧ HWF l ∧ HWF r

theorem HWF_freq_pos : ∀ t : HNode, HWF t → 1 ≤ t.frequency
  | .leaf _ _, h => h
  | .node f l r, h => by
    obtain ⟨hf, _, hl, _⟩ := h
    have := HWF_freq_pos l hl
    show 1 ≤ f
    omega

theorem bumpKey_snd_pos : ∀ (d : List (Nat × Nat)) (b : Nat),
    (∀ p ∈ d, 1 ≤ p.2) → ∀ p ∈ bumpKey d b, 1 ≤ p.2
  | [], b, _, p, hp => by
    simp only [bumpKey, List.mem_singleton] at hp
    subst hp; exact le_refl 1
  | (k, v) :: rest, b, hd, p, hp => by
    rw [bumpKey] at hp
    by_cases hk : k = b
    · rw [if_pos hk] at hp
      rcases List.mem_cons.mp hp with h | h
      · subst h; show 1 ≤ v + 1; omega
      · exact hd p (List.mem_cons_of_mem _ h)
    · rw [if_neg hk] at hp
      rcases List.mem_cons.mp hp with h | h
      · subst h; exact hd (k, v) (List.mem_cons_self _ _)
      · exact bumpKey_snd_pos rest b (fun q hq => hd q (List.mem_cons_of_mem _ hq)) p h

theorem foldl_bumpKey_snd_pos : ∀ (l : List Nat) (d : List (Nat × Nat)),
    (∀ p ∈ d, 1 ≤ p.2) → ∀ p ∈ l.foldl bumpKey d, 1 ≤ p.2
  | [], _, hd => hd
  | b :: bs, d, hd =>
    foldl_bumpKey_snd_pos bs (bumpKey d b) (bumpKey_snd_pos d b hd)

theorem leavesOfInput_HWF (l : List Nat) : ∀ t ∈ leavesOfInput l, HWF t := by
  intro t ht
  obtain ⟨p, hp, hpt⟩ := List.mem_map.mp ht
  have := foldl_bumpKey_snd_pos l [] (by intro q hq; simp at hq) p hp
  rw [← hpt]
  exact this

theorem foldl_heappush_inv : ∀ (l : List HNode) (h : List HNode),
    heapInv h → heapInv (l.foldl heappush h)
  | [], _, hh => hh
  | x :: xs, h, hh => foldl_heappush_inv xs (heappush h x) (heappush_inv h x hh)

theorem heappush_mem (h : List HNode) (x y : HNode) (hy : y ∈ heappush h x) :
    y = x ∨ y ∈ h := by
  have h1 : y ∈ ((heappush h x : List HNode) : Multiset HNode) := by exact_mod_cast hy
  rw [heappush_ms] at h1
  rcases Multiset.mem_cons.mp h1 with h2 | h2
  · exact Or.inl h2
  · exact Or.inr (by exact_mod_cast h2)

theorem heappop_mem (heap : List HNode) (x : HNode) (h' : List HNode)
    (hpop : heappop heap = some (x, h')) :
    x ∈ heap ∧ ∀ y ∈ h', y ∈ heap := by
  have hms := heappop_ms heap x h' hpop
  constructor
  · have : x ∈ (heap : Multiset HNode) := by rw [hms]; exact Multiset.mem_cons_self x _
    exact_mod_cast this
  · intro y hy
    have h1 : y ∈ (h' : Multiset HNode) := by exact_mod_cast hy
    have : y ∈ (heap : Multiset HNode) := by
      rw [hms]; exact Multiset.mem_cons_of_mem h1
    exact_mod_cast this

theorem buildTreeLoopF_HWF : ∀ (fuel : Nat) (heap : List HNode) (t : HNode),
    heapInv heap → (∀ y ∈ heap, HWF y) →
    buildTreeLoopF fuel heap = some t → HWF t := by
  intro fuel
  induction fuel with
  | zero =>
    intro heap t _ _ ht
    simp [buildTreeLoopF] at ht
  | succ f ih =>
    intro heap t hinv hwf ht
    rcases hp1 : heappop heap with _ | ⟨x1, h1⟩
    · simp only [buildTreeLoopF, hp1] at ht
      exact Option.noConfusion ht
    · rcases hp2 : heappop h1 with _ | ⟨x2, h2⟩
      · simp only [buildTreeLoopF, hp1, hp2, Option.some_inj] at ht
        exact ht ▸ hwf _ (heappop_mem heap x1 h1 hp1).1
      · simp only [buildTreeLoopF, hp1, hp2] at ht
        have hinv1 := heappop_inv heap x1 h1 hinv hp1
        have hinv2 := heappop_inv h1 x2 h2 hinv1 hp2
        have hx2h1 : x2 ∈ h1 := (heappop_mem h1 x2 h2 hp2).1
        have hle : x1.frequency ≤ x2.frequency :=
          heappop_min heap x1 h1 hinv hp1 x2 hx2h1
        apply ih _ t (heappush_inv h2 _ hinv2) _ ht
        intro y hy
        rcases heappush_mem h2 _ y hy with h | h
        · subst h
          refine ⟨rfl, hle, ?_, ?_⟩
          · exact hwf _ (heappop_mem heap x1 h1 hp1).1
          · exact hwf _ ((heappop_mem heap x1 h1 hp1).2 _ hx2h1)
        · exact hwf _ ((heappop_mem heap x1 h1 hp1).2 _ ((heappop_mem h1 x2 h2 hp2).2 _ h))

theorem root_eq_of_strict_min (h : List HNode) (hinv : heapInv h) (x : HNode)
    (S : Multiset HNode) (hms : (h : Multiset HNode) = x ::ₘ S)
    (hstrict : ∀ y ∈ S, x.frequency < y.frequency) :
    h.getD 0 default = x := by
  have hne : h ≠ [] := by
    intro h0
    rw [h0] at hms
    simp only [Multiset.coe_nil] at hms
    exact Multiset.cons_ne_zero hms.symm
  have hlen : 0 < h.length := List.length_pos.mpr hne
  have hrm : h.getD 0 default ∈ h := hGetD_mem h 0 default hlen
  have hrms : h.getD 0 default ∈ (h : Multiset HNode) := by exact_mod_cast hrm
  rw [hms] at hrms
  rcases Multiset.mem_cons.mp hrms with he | he
  · exact he
  · exfalso
    have hxh : x ∈ h := by
      have hx : x ∈ (h : Multiset HNode) := by rw [hms]; exact Multiset.mem_cons_self x S
      exact_mod_cast hx
    have h1 := heapInv_root_min_mem h hinv x hxh
    have h2 := hstrict _ he
    omega

/-- The depth-first pre-order node sequence of a tree: each node before
its children, the entire left subtree before the right subtree (this is
the spec's description of the walk, to be compared with the heap-driven
`preorderVisit`). -/
def preorderList : HNode → List HNode
  | .leaf f v => [.leaf f v]
  | .node f l r => .node f l r :: (preorderList l ++ preorderList r)

/-- The spec's serialized tree representation: a pre-order walk where each
internal node contributes a single `0` bit and each leaf contributes a `1`
bit followed by its 8-bit byte value. -/
def serializeDFS : HNode → List Bool
  | .leaf _ v => true :: pyFormatB 8 v
  | .node _ l r => false :: (serializeDFS l ++ serializeDFS r)

theorem foldl_huffAction : ∀ (t : HNode) (acc : List Bool),
    (preorderList t).foldl (fun a n => a ++ huffAction n) acc = acc ++ serializeDFS t
  | .leaf f v, acc => by
    simp only [preorderList, List.foldl_cons, List.foldl_nil, serializeDFS]
    rfl
  | .node f l r, acc => by
    simp only [preorderList, List.foldl_cons, List.foldl_append, serializeDFS]
    rw [foldl_huffAction l, foldl_huffAction r]
    simp [huffAction, HNode.isLeaf, List.append_assoc]

theorem preorder_drain (t : HNode) : ∀ (fuel : Nat) (heap acc : List HNode)
    (R : Multiset HNode),
    heapInv heap → (∀ y ∈ heap, HWF y) → HWF t →
    heap.getD 0 default = t → (heap : Multiset HNode) = t ::ₘ R →
    (∀ y ∈ R, t.frequency ≤ y.frequency) → t.size ≤ fuel →
    ∃ heap' : List HNode,
      preorderLoopF fuel heap acc =
        preorderLoopF (fuel - t.size) heap' (acc ++ preorderList t) ∧
      heapInv heap' ∧ (∀ y ∈ heap', HWF y) ∧ (heap' : Multiset HNode) = R := by
  induction t with
  | leaf f v =>
    intro fuel heap acc R hinv hwf _ hroot hms hdom hfuel
    simp only [HNode.size] at hfuel
    cases fuel with
    | zero => omega
    | succ f' =>
      have hne : heap ≠ [] := by
        intro h0
        rw [h0] at hms
        simp only [Multiset.coe_nil] at hms
        exact Multiset.cons_ne_zero hms.symm
      rcases hp : heappop heap with _ | ⟨x1, h1⟩
      · exact absurd ((heappop_none_iff heap).mp hp) hne
      · have hx1 : x1 = HNode.leaf f v := (heappop_fst heap x1 h1 hp).trans hroot
        subst hx1
        have hms1 : (h1 : Multiset HNode) = R := by
          have hmsh := heappop_ms heap _ h1 hp
          exact (Multiset.cons_inj_right _).mp (hmsh.symm.trans hms)
        refine ⟨h1, ?_, heappop_inv heap _ h1 hinv hp, ?_, hms1⟩
        · simp only [preorderLoopF, hp, HNode.size, preorderList, Nat.add_sub_cancel]
        · intro y hy
          exact hwf y ((heappop_mem heap _ h1 hp).2 y hy)
  | node f l r ihl ihr =>
    intro fuel heap acc R hinv hwf hwt hroot hms hdom hfuel
    obtain ⟨hfsum, hlr, hwl, hwr⟩ := hwt
    have hl1 : 1 ≤ l.frequency := HWF_freq_pos l hwl
    have hr1 : 1 ≤ r.frequency := HWF_freq_pos r hwr
    simp only [HNode.size] at hfuel
    cases fuel with
    | zero => omega
    | succ f' =>
      have hne : heap ≠ [] := by
        intro h0
        rw [h0] at hms
        simp only [Multiset.coe_nil] at hms
        exact Multiset.cons_ne_zero hms.symm
      rcases hp : heappop heap with _ | ⟨x1, h1⟩
      · exact absurd ((heappop_none_iff heap).mp hp) hne
      · have hx1 : x1 = HNode.node f l r := (heappop_fst heap x1 h1 hp).trans hroot
        subst hx1
        have hms1 : (h1 : Multiset HNode) = R := by
          have hmsh := heappop_ms heap _ h1 hp
          exact (Multiset.cons_inj_right _).mp (hmsh.symm.trans hms)
        have hinv1 := heappop_inv heap _ h1 hinv hp
        have hwf1 : ∀ y ∈ h1, HWF y :=
          fun y hy => hwf y ((heappop_mem heap _ h1 hp).2 y hy)
        have hdomf : ∀ y ∈ R, f ≤ y.frequency := hdom
        have hmemR : ∀ y ∈ h1, y ∈ R := by
          intro y hy
          rw [← hms1]
          exact_mod_cast hy
        have hstrict : ∀ y ∈ h1, l.frequency < y.frequency := by
          intro y hy
          have := hdomf y (hmemR y hy)
          omega
        have hne2 : heappush h1 l ≠ [] := by
          intro h0
          have hl := heappush_length h1 l
          rw [h0] at hl
          simp at hl
        have hpl : (heappush h1 l).getD 0 default = l := push_root_smallest h1 l hstrict
        have hroot2 : (heappush (heappush h1 l) r).getD 0 default = l := by
          rw [push_root_keep (heappush h1 l) r hne2 (by rw [hpl]; omega)]
          exact hpl
        have hinv2 : heapInv (heappush (heappush h1 l) r) :=
          heappush_inv _ r (heappush_inv h1 l hinv1)
        have hwf2 : ∀ y ∈ heappush (heappush h1 l) r, HWF y := by
          intro y hy
          rcases heappush_mem _ r y hy with h | h
          · subst h; exact hwr
          · rcases heappush_mem h1 l y h with h' | h'
            · subst h'; exact hwl
            · exact hwf1 y h'
        have hms2 : ((heappush (heappush h1 l) r : List HNode) : Multiset HNode) =
            l ::ₘ (r ::ₘ R) := by
          rw [heappush_ms, heappush_ms, hms1]
          exact Multiset.cons_swap r l R
        have hdom2 : ∀ y ∈ (r ::ₘ R : Multiset HNode), l.frequency ≤ y.frequency := by
          intro y hy
          rcases Multiset.mem_cons.mp hy with h | h
          · subst h; exact hlr
          · have := hdomf y h
            omega
        obtain ⟨heap3, e3, hinv3, hwf3, hms3⟩ :=
          ihl f' (heappush (heappush h1 l) r) (acc ++ [HNode.node f l r]) (r ::ₘ R)
            hinv2 hwf2 hwl hroot2 hms2 hdom2 (by omega)
        have hstrictR : ∀ y ∈ R, r.frequency < y.frequency := by
          intro y hy
          have := hdomf y hy
          omega
        have hroot3 : heap3.getD 0 default = r :=
          root_eq_of_strict_min heap3 hinv3 r R hms3 hstrictR
        obtain ⟨heap4, e4, hinv4, hwf4, hms4⟩ :=
          ihr (f' - l.size) heap3 (acc ++ [HNode.node f l r] ++ preorderList l) R
            hinv3 hwf3 hwr hroot3 hms3
            (fun y hy => le_of_lt (hstrictR y hy)) (by omega)
        refine ⟨heap4, ?_, hinv4, hwf4, hms4⟩
        calc preorderLoopF (f' + 1) heap acc
            = preorderLoopF f' (heappush (heappush h1 l) r)
                (acc ++ [HNode.node f l r]) := by
              simp only [preorderLoopF, hp]
          _ = preorderLoopF (f' - l.size) heap3
                ((acc ++ [HNode.node f l r]) ++ preorderList l) := e3
          _ = preorderLoopF (f' - l.size - r.size) heap4
                (((acc ++ [HNode.node f l r]) ++ preorderList l) ++ preorderList r) := e4
          _ = preorderLoopF (f' + 1 - (HNode.node f l r).size) heap4
                (acc ++ preorderList (HNode.node f l r)) := by
              have ha : f' - l.size - r.size = f' + 1 - (HNode.node f l r).size := by
                simp only [HNode.size]; omega
              have hb : ((acc ++ [HNode.node f l r]) ++ preorderList l) ++ preorderList r
                  = acc ++ preorderList (HNode.node f l r) := by
                simp [preorderList, List.append_assoc]
              rw [ha, hb]

theorem preorderVisit_eq_preorderList (t : HNode) (hwf : HWF t) :
    preorderVisit t = preorderList t := by
  have hpush : heappush [] t = [t] := rfl
  have hfuel : heapFuel [t] = t.size := by simp [heapFuel]
  obtain ⟨heap', he, _, _, _⟩ :=
    preorder_drain t t.size [t] [] 0 (heapInv_singleton t)
      (by intro y hy; simp at hy; subst hy; exact hwf) hwf rfl (by simp)
      (by intro y hy; simp at hy) (le_refl _)
  rw [preorderVisit, hpush, hfuel, he]
  simp [preorderLoopF]

theorem buildTree_HWF (l : List Nat) (t : HNode)
    (ht : buildTree (leavesOfInput l) = some t) : HWF t := by
  rw [buildTree, buildTreeLoop] at ht
  apply buildTreeLoopF_HWF _ _ t (foldl_heappush_inv _ [] heapInv_nil) _ ht
  intro y hy
  have h1 : y ∈ (((leavesOfInput l).foldl heappush [] : List HNode) : Multiset HNode) := by
    exact_mod_cast hy
  rw [foldl_heappush_ms] at h1
  simp only [Multiset.coe_nil, zero_add] at h1
  have h2 : y ∈ leavesOfInput l := by exact_mod_cast h1
  exact leavesOfInput_HWF l y h2

/-- **C7.** For every Huffman tree built at compress time (from the
occurrence-count leaves of any input), the heap-driven
`preorder_traversal` visits the nodes in depth-first pre-order — each node
before its children and the entire left subtree before the right subtree —
and the serialization accumulated through `Huffman.traversal_action`
equals the DFS serialization in which each internal node contributes a
single `0` bit and each leaf a `1` bit followed by its 8-bit byte
value. -/
theorem c7_preorder_serialization (l : List Nat) (t : HNode)
    (ht : buildTree (leavesOfInput l) = some t) :
    preorderVisit t = preorderList t ∧ encodedTreeOf t = serializeDFS t := by
  have hwf := buildTree_HWF l t ht
  have hv := preorderVisit_eq_preorderList t hwf
  refine ⟨hv, ?_⟩
  rw [encodedTreeOf, hv, foldl_huffAction t []]
  exact List.nil_append _

theorem c7_preorder_serialization_witness :
    buildTree (leavesOfInput [0, 1]) =
        some (.node 2 (.leaf 1 0) (.leaf 1 1)) ∧
      (preorderVisit (.node 2 (.leaf 1 0) (.leaf 1 1)) =
          preorderList (.node 2 (.leaf 1 0) (.leaf 1 1)) ∧
        encodedTreeOf (.node 2 (.leaf 1 0) (.leaf 1 1)) =
          serializeDFS (.node 2 (.leaf 1 0) (.leaf 1 1))) :=
  ⟨by decide, c7_preorder_serialization [0, 1] _ (by decide)⟩

/-! ### The LZW encoder on a run of a single repeated byte

On `List.replicate N 97` the dictionary grows one run-length at a time:
after the encoder has created entries for the runs `aa`, `aaa`, …, up to
length `d + 1`, the dictionary is `dictD d` below.  This characterizes
`biggest_integer` exactly, which is what the overflow guard tests. -/

/-- The compression dictionary after `d` new entries on all-`97` input:
the 256 initial single bytes plus the runs of length `2 … d + 1`, with
codes `256 … 255 + d`. -/
def dictD (d : Nat) : List (List Nat × Nat) :=
  lzwInitDictC ++ (List.range d).map (fun t => (List.replicate (t+2) 97, 256+t))

/-- `rsum d n = (d+1) + (d+2) + ⋯ + (d+n)`: the number of input bytes the
encoder consumes in rounds `d, d+1, …, d+n-1` (the round at dictionary
state `d` consumes `d+1` bytes). -/
def rsum : Nat → Nat → Nat
  | _, 0 => 0
  | d, n + 1 => (d + 1) + rsum (d + 1) n

theorem rsum_closed : ∀ (n d : Nat), 2 * rsum d n = n * (2 * d + n + 1) := by
  intro n
  induction n with
  | zero => intro d; simp [rsum]
  | succ k ih =>
    intro d
    simp only [rsum]
    rw [Nat.mul_add, ih (d + 1)]
    ring

theorem cfind_append_some (d1 d2 : List (List Nat × Nat)) (k : List Nat) (v : Nat)
    (h : cfind d1 k = some v) : cfind (d1 ++ d2) k = some v := by
  rw [cfind] at h ⊢
  obtain ⟨p, hp, hpv⟩ := Option.map_eq_some'.mp h
  rw [List.find?_append, hp]
  simp [hpv]

theorem cfind_append_none (d1 d2 : List (List Nat × Nat)) (k : List Nat)
    (h : cfind d1 k = none) : cfind (d1 ++ d2) k = cfind d2 k := by
  rw [cfind] at h ⊢
  have hn : d1.find? (fun p => p.1 == k) = none := Option.map_eq_none'.mp h
  rw [List.find?_append, hn, Option.none_or, cfind]

theorem cfind_init_single : cfind lzwInitDictC [97] = some 97 := by decide

theorem cfind_init_run (i : Nat) (h2 : 2 ≤ i) :
    cfind lzwInitDictC (List.replicate i 97) = none := by
  rw [cfind, Option.map_eq_none', List.find?_eq_none]
  intro x hx
  simp only [lzwInitDictC, List.mem_map, List.mem_range] at hx
  obtain ⟨b, _, hxb⟩ := hx
  subst hxb
  simp only [beq_iff_eq]
  intro he
  have := congrArg List.length he
  simp at this
  omega

theorem cfind_runs : ∀ (d i : Nat), 2 ≤ i →
    cfind ((List.range d).map (fun t => (List.replicate (t+2) 97, 256+t)))
        (List.replicate i 97) =
      if i ≤ d + 1 then some (254 + i) else none := by
  intro d
  induction d with
  | zero =>
    intro i h2
    rw [if_neg (by omega)]
    rfl
  | succ d ih =>
    intro i h2
    rw [List.range_succ, List.map_append]
    by_cases hle : i ≤ d + 1
    · have hsome := ih i h2
      rw [if_pos hle] at hsome
      rw [cfind_append_some _ _ _ _ hsome, if_pos (by omega)]
    · have hnone := ih i h2
      rw [if_neg hle] at hnone
      rw [cfind_append_none _ _ _ hnone]
      by_cases heq : i = d + 2
      · subst heq
        rw [if_pos (by omega)]
        rw [List.map_singleton, cfind, List.find?_cons_of_pos _ (by simp)]
        simp only [Option.map_some']
        congr 1
        omega
      · rw [if_neg (by omega)]
        rw [List.map_singleton, cfind, List.find?_cons_of_neg _ ?_, List.find?_nil]
        · rfl
        · simp only [beq_iff_eq, Bool.not_eq_true, decide_eq_false_iff_not]
          intro he
          have := congrArg List.length he
          simp at this
          omega

theorem cfind_dictD_run (d i : Nat) (h2 : 2 ≤ i) :
    cfind (dictD d) (List.replicate i 97) =
      if i ≤ d + 1 then some (254 + i) else none := by
  rw [dictD, cfind_append_none _ _ _ (cfind_init_run i h2), cfind_runs d i h2]

theorem cfind_dictD_one (d : Nat) : cfind (dictD d) [97] = some 97 := by
  rw [dictD]
  exact cfind_append_some _ _ _ _ cfind_init_single

theorem dictD_length (d : Nat) : (dictD d).length = 256 + d := by
  simp [dictD, lzwInitDictC]

theorem dictD_succ (d : Nat) :
    dictD d ++ [(List.replicate (d+2) 97, 256 + d)] = dictD (d+1) := by
  rw [dictD, dictD, List.range_succ, List.map_append, List.append_assoc,
    List.map_singleton]

theorem lzw_growth : ∀ (k p : Nat) (C : List Nat) (B d : Nat), 1 ≤ p → p + k ≤ d + 1 →
    List.foldl lzwStep ⟨dictD d, List.replicate p 97, C, B⟩ (List.replicate k 97)
      = ⟨dictD d, List.replicate (p + k) 97, C, B⟩ := by
  intro k
  induction k with
  | zero => intro p C B d _ _; simp
  | succ k ih =>
    intro p C B d h1 hk
    have hrep : List.replicate p 97 ++ [97] = List.replicate (p + 1) 97 :=
      (List.replicate_succ' p 97).symm
    have hfind : cfind (dictD d) (List.replicate p 97 ++ [97]) = some (254 + (p + 1)) := by
      rw [hrep, cfind_dictD_run d (p + 1) (by omega), if_pos (by omega)]
    rw [List.replicate_succ, List.foldl_cons]
    have hstep : lzwStep ⟨dictD d, List.replicate p 97, C, B⟩ 97
        = ⟨dictD d, List.replicate (p + 1) 97, C, B⟩ := by
      simp only [lzwStep, hfind]
      rw [hrep]
    rw [hstep, show p + (k + 1) = (p + 1) + k from by omega]
    exact ih (p + 1) C B d (by omega) (by omega)

theorem lzw_emit (d : Nat) (C : List Nat) (B : Nat) (h1 : 1 ≤ d) :
    lzwStep ⟨dictD d, List.replicate (d+1) 97, C, B⟩ 97
      = ⟨dictD (d+1), [97], C ++ [254 + (d+1)], max B (254 + (d+1))⟩ := by
  have hrep : List.replicate (d+1) 97 ++ [97] = List.replicate (d+2) 97 := by
    rw [show d + 2 = (d + 1) + 1 from rfl]
    exact (List.replicate_succ' (d + 1) 97).symm
  have hfind : cfind (dictD d) (List.replicate (d+1) 97 ++ [97]) = none := by
    rw [hrep, cfind_dictD_run d (d + 2) (by omega), if_neg (by omega)]
  have hlook : cfind (dictD (d+1)) (List.replicate (d+1) 97) = some (254 + (d+1)) := by
    rw [cfind_dictD_run (d + 1) (d + 1) (by omega), if_pos (by omega)]
  simp only [lzwStep, hfind]
  rw [hrep, dictD_length d, dictD_succ d, hlook]
  rfl

theorem lzw_round (d : Nat) (C : List Nat) (B : Nat) (h1 : 1 ≤ d) :
    List.foldl lzwStep ⟨dictD d, [97], C, B⟩ (List.replicate (d+1) 97)
      = ⟨dictD (d+1), [97], C ++ [254 + (d+1)], max B (254 + (d+1))⟩ := by
  rw [List.replicate_succ' d 97, List.foldl_append]
  have hg : List.foldl lzwStep ⟨dictD d, [97], C, B⟩ (List.replicate d 97)
      = ⟨dictD d, List.replicate (d + 1) 97, C, B⟩ := by
    have := lzw_growth d 1 C B d (le_refl 1) (by omega)
    rw [show 1 + d = d + 1 from by omega] at this
    exact this
  rw [hg, List.foldl_cons, List.foldl_nil]
  exact lzw_emit d C B h1

theorem lzw_rounds : ∀ (n : Nat), 1 ≤ n → ∀ (d : Nat) (C : List Nat) (B : Nat), 1 ≤ d →
    ∃ C' : List Nat,
      List.foldl lzwStep ⟨dictD d, [97], C, B⟩ (List.replicate (rsum d n) 97)
        = ⟨dictD (d + n), [97], C', max B (254 + d + n)⟩ := by
  intro n
  induction n with
  | zero => intro h; omega
  | succ k ih =>
    intro _ d C B hd
    by_cases hk : k = 0
    · subst hk
      refine ⟨C ++ [254 + (d + 1)], ?_⟩
      have hr : rsum d (0 + 1) = d + 1 := by simp [rsum]
      rw [hr, lzw_round d C B hd]
      rw [show d + (0 + 1) = d + 1 from by omega,
        show 254 + d + (0 + 1) = 254 + (d + 1) from by omega]
    · have hr : rsum d (k + 1) = (d + 1) + rsum (d + 1) k := rfl
      rw [hr, List.replicate_add, List.foldl_append, lzw_round d C B hd]
      obtain ⟨C', hC⟩ := ih (by omega) (d + 1) (C ++ [254 + (d + 1)])
        (max B (254 + (d + 1))) (by omega)
      refine ⟨C', ?_⟩
      rw [hC]
      rw [show d + 1 + k = d + (k + 1) from by omega]
      rw [max_assoc, max_eq_right (by omega : 254 + (d+1) ≤ 254 + (d+1) + k),
        show 254 + (d + 1) + k = 254 + d + (k + 1) from by omega]

theorem lzw_first_two :
    List.foldl lzwStep ⟨lzwInitDictC, [], [], 0⟩ [97, 97] = ⟨dictD 1, [97], [97], 97⟩ := by
  decide

theorem lzwCodes_replicate (n : Nat) (hn : 1 ≤ n) :
    (lzwCodes (List.replicate (2 + rsum 1 n + (n + 1)) 97)).2 = 256 + n := by
  obtain ⟨C', hC⟩ := lzw_rounds n hn 1 [97] 97 (le_refl 1)
  have hgrow : List.foldl lzwStep ⟨dictD (1 + n), [97], C', max 97 (254 + 1 + n)⟩
      (List.replicate (n + 1) 97)
      = ⟨dictD (1 + n), List.replicate (1 + (n + 1)) 97, C', max 97 (254 + 1 + n)⟩ :=
    lzw_growth (n + 1) 1 C' (max 97 (254 + 1 + n)) (1 + n) (le_refl 1) (by omega)
  have hfold : List.foldl lzwStep ⟨lzwInitDictC, [], [], 0⟩
      (List.replicate (2 + rsum 1 n + (n + 1)) 97)
      = ⟨dictD (1 + n), List.replicate (1 + (n + 1)) 97, C', max 97 (254 + 1 + n)⟩ := by
    rw [show 2 + rsum 1 n + (n + 1) = 2 + (rsum 1 n + (n + 1)) from by omega,
      List.replicate_add, List.replicate_add,
      show List.replicate 2 97 = [97, 97] from rfl,
      List.foldl_append, List.foldl_append, lzw_first_two, hC, hgrow]
  simp only [lzwCodes, hfold]
  have hlast : cfind (dictD (1 + n)) (List.replicate (1 + (n + 1)) 97)
      = some (254 + (n + 2)) := by
    rw [show 1 + (n + 1) = n + 2 from by omega,
      cfind_dictD_run (1 + n) (n + 2) (by omega), if_pos (by omega)]
  rw [hlast]
  simp only [Option.getD_some]
  omega

/-- **C5** (counterexample to the stated boundary).  On the input of
`9223370948080598403` copies of byte `97` the largest emitted code is
exactly `2^32`, so the required codeword bit-width is `33 > 32`; the
claim says such an input must fail with the Width-Overflow error, but the
code's guard is `biggest_integer > 2 ** (2 ** 5)`, which `2^32` does not
satisfy, so no overflow error is raised. -/
theorem c5_overflow_boundary_counterexample :
    32 < lzwWidth (List.replicate 9223370948080598403 97) ∧
      lzwCompressFile (List.replicate 9223370948080598403 97) ≠ CRes.err CErr.overflow := by
  have hrs : rsum 1 4294967040 = 9223370943785631360 := by
    have h2 := rsum_closed 4294967040 1
    norm_num at h2
    omega
  have hK : (9223370948080598403 : Nat) = 2 + rsum 1 4294967040 + (4294967040 + 1) := by
    rw [hrs]
  have hsnd : (lzwCodes (List.replicate 9223370948080598403 97)).2 = 2 ^ 32 := by
    rw [hK, lzwCodes_replicate 4294967040 (by norm_num)]
    norm_num
  have hov : ¬ lzwOverflow (List.replicate 9223370948080598403 97) := by
    rw [lzwOverflow, hsnd]
    norm_num
  have hne : List.replicate 9223370948080598403 97 ≠ [] := by
    intro h
    have h2 := congrArg List.length h
    rw [List.length_replicate, List.length_nil] at h2
    norm_num at h2
  constructor
  · rw [lzwWidth, hsnd]
    have h1 := lt_two_pow_bitLen (2 ^ 32)
    by_contra hle
    push_neg at hle
    have h2 : (2 : Nat) ^ bitLen (2 ^ 32) ≤ 2 ^ 32 :=
      Nat.pow_le_pow_right (by norm_num) hle
    omega
  · rw [lzwCompressFile, if_neg hne, if_neg hov]
    by_cases hg : (List.replicate 9223370948080598403 97).length ≤
        (lzwArtifact (List.replicate 9223370948080598403 97)).length
    · rw [if_pos hg]
      intro h
      simp at h
    · rw [if_neg hg]
      intro h
      exact CRes.noConfusion h

/-- **C5** (amended).  For every nonempty input, LZW compress fails with
the Width-Overflow error iff the largest emitted code strictly exceeds
`2^32` (the guard compares `biggest_integer`, not its bit-length, so a
largest code of exactly `2^32` — required width 33 — slips through); in
particular, whenever the required codeword bit-width is at most 32 no
overflow error is raised. -/
theorem c5_overflow_guard (l : List Nat) (hne : l ≠ []) :
    (lzwCompressFile l = CRes.err CErr.overflow ↔ 2 ^ 32 < (lzwCodes l).2) ∧
    (lzwWidth l ≤ 32 → lzwCompressFile l ≠ CRes.err CErr.overflow) := by
  have hiff : lzwCompressFile l = CRes.err CErr.overflow ↔ lzwOverflow l := by
    rw [lzwCompressFile, if_neg hne]
    by_cases hov : lzwOverflow l
    · rw [if_pos hov]
      simp [hov]
    · rw [if_neg hov]
      constructor
      · intro h
        by_cases hg : l.length ≤ (lzwArtifact l).length
        · rw [if_pos hg] at h
          simp at h
        · rw [if_neg hg] at h
          exact CRes.noConfusion h
      · intro h
        exact absurd h hov
  constructor
  · rw [hiff, lzwOverflow]
    norm_num
  · intro hw hc
    rw [hiff, lzwOverflow] at hc
    rw [lzwWidth] at hw
    have h1 := lt_two_pow_bitLen (lzwCodes l).2
    have h2 : (2 : Nat) ^ bitLen (lzwCodes l).2 ≤ 2 ^ 32 :=
      Nat.pow_le_pow_right (by norm_num) hw
    have h3 : (2 : Nat) ^ (2 ^ 5) = 2 ^ 32 := by norm_num
    omega

theorem c5_overflow_guard_witness :
    ([0] : List Nat) ≠ [] ∧
      ((lzwCompressFile [0] = CRes.err CErr.overflow ↔ 2 ^ 32 < (lzwCodes [0]).2) ∧
        (lzwWidth [0] ≤ 32 → lzwCompressFile [0] ≠ CRes.err CErr.overflow)) :=
  ⟨by decide, c5_overflow_guard [0] (by decide)⟩
